import Mathlib

/-!
# Verification of the flasync chain engine (src/lib/flasync.js)

This file is a shallow embedding of the flasync mix-in: the task queue
(`_todo`), the pending-operation counter (`_pendingCount`), the drain loop
(`_nextTask`), the enqueue primitive (`then`), the `finally` barrier, the
`asyncify` and `async` adapters, and the `onError` registration.

Modelling conventions:

* Machine state is `EngineState`: the queue, the counter (an `Int`, since the
  JS counter is an ordinary number that the code can in fact drive negative),
  whether an error handler is registered, plus ghost data that does not
  influence behaviour: a fresh-id counter (ids record enqueue order), a map
  from external completion ids to the task they belong to, and an event trace.
* A task body (the JS callback handed to `then`) is deep-embedded as `Tsk`:
  a finite sequence of side effects (`emit`), nested enqueues (`enq`,
  modelling a body that calls `thing.then(...)`), ended by either calling its
  `done` callback (`callDone`), returning without calling it (`ret`),
  suspending and letting an external event fire `done` later (`suspend`),
  throwing (`throwE`), or the special wrapper pushed by `finally` (`finWrap`,
  which decrements the counter and invokes the user callback, never `done`).
* The user-supplied error handler and the `finally` user callback are
  modelled as pure observers: invoking them appends a trace event.  This
  matches the spec's collaborator contract (the handler "is not expected to
  resume the chain").
* Each external completion id is removed from the waiting map when fired, so
  a `done` closure fires at most once; this models the spec's caller
  contract that `done` is invoked at most once (invoking it more than once
  is declared undefined behaviour that the engine does not guard against).
* The drain loop is fuel-indexed (`nextTask fuel`): fuel bounds the depth of
  re-entrant draining, and running out of fuel yields the `Res.out` result
  about which nothing is claimed.  Tsk bodies themselves are interpreted by
  structural recursion, so a single unit of fuel runs a whole body.
-/

set_option linter.unusedVariables false

/-- A JavaScript value passed as the `err` argument of a `done` callback. -/
inductive JsVal where
  | undefined
  | null
  | bool (b : Bool)
  | num (n : Int)
  | str (s : String)
  | err (code : Nat)
deriving DecidableEq

/-- JavaScript truthiness of the modelled values, as tested by
`if (err && thing._onError)` in `_nextTask`. -/
def JsVal.truthy : JsVal → Bool
  | .undefined => false
  | .null => false
  | .bool b => b
  | .num n => !(n == 0)
  | .str s => !(s == "")
  | .err _ => true

/-- Deep embedding of a task body: the callback handed to `then`
(`function (done) { ... }`).  See the module comment for the reading of each
constructor. -/
inductive Tsk where
  | ret : Tsk
  | emit (l : Nat) (k : Tsk) : Tsk
  | enq (t : Tsk) (k : Tsk) : Tsk
  | callDone (e : JsVal) (k : Tsk) : Tsk
  | throwE (e : Nat) : Tsk
  | suspend (sid : Nat) : Tsk
  | finWrap (cid : Nat) : Tsk
deriving DecidableEq

/-- Trace events.  `started tid p` records that the task with ghost id `tid`
was dequeued and invoked while `_pendingCount` was `p` (just before the
increment); `doneCalled tid e` that its `done` was invoked with `e`;
`finCb tid cid` that the `finally` wrapper with ghost id `tid` ran (decrement
plus user callback `cid`); `emitted l` a task side effect; `handlerCalled e`
an invocation of the registered error handler. -/
inductive Event where
  | started (tid : Nat) (p : Int)
  | doneCalled (tid : Nat) (e : JsVal)
  | finCb (tid : Nat) (cid : Nat)
  | emitted (l : Nat)
  | handlerCalled (e : JsVal)
deriving DecidableEq

/-- The per-instance state installed by `flasync(thing)`: `_todo` (with ghost
enqueue ids), `_pendingCount`, whether `_onError` is set, plus ghost data
(fresh-id counter, pending external completions, event trace). -/
structure EngineState where
  todo : List (Nat × Tsk)
  pendingCount : Int
  hasHandler : Bool
  nextId : Nat
  waiting : List (Nat × Nat)
  trace : List Event
deriving DecidableEq

/-- Append one event to the ghost trace. -/
def addEvent (e : Event) (s : EngineState) : EngineState :=
  { s with trace := s.trace ++ [e] }

/-- Result of running a piece of the engine: normal return, an exception
propagating out of the drain step (the `throw err` in `_nextTask`'s catch
block), or fuel exhaustion. -/
inductive Res where
  | ok (s : EngineState)
  | thrown (e : Nat) (s : EngineState)
  | out
deriving DecidableEq

/-- Return value of a public API call: the host object (`return thing`),
`undefined` (no return statement, as in `finally`), or an arbitrary value
(the synchronous method's own result on the fast path). -/
inductive RetV where
  | self
  | undefV
  | val (v : Int)
deriving DecidableEq

/-- Result of a public API call: a `Res` together with the returned value on
normal completion. -/
inductive ORes where
  | ok (s : EngineState) (v : RetV)
  | thrown (e : Nat) (s : EngineState)
  | out
deriving DecidableEq

/-- Attach a return value to a normal completion. -/
def liftRes : Res → RetV → ORes
  | .ok s, v => .ok s v
  | .thrown e s, _ => .thrown e s
  | .out, _ => .out

/-- `thing._todo.push(callback)`, allocating the next ghost enqueue id. -/
def pushSt (t : Tsk) (s : EngineState) : EngineState :=
  { s with todo := s.todo ++ [(s.nextId, t)], nextId := s.nextId + 1 }

/-- The body of `then` (flasync.js lines 21-29), parametric in the drain
entry point `next` (the re-entrant call to `thing._nextTask`):
push the callback onto `_todo` and, if `!thing._pendingCount`, drain. -/
def thenOpWith (next : EngineState → Res) (t : Tsk) (s : EngineState) : Res :=
  if (pushSt t s).pendingCount == 0 then next (pushSt t s) else .ok (pushSt t s)

/-- The body of the completion closure `function (err) { ... }` created in
`_nextTask` (flasync.js lines 64-72): on a truthy error with a handler
registered, clear the queue, set the counter to 0 and invoke the handler;
then (in every case — the code has no early return) decrement the counter
and call `_nextTask` again.  `tid` is the ghost id of the task this `done`
belongs to. -/
def doneStepWith (next : EngineState → Res) (tid : Nat) (e : JsVal)
    (s : EngineState) : Res :=
  let s0 := addEvent (.doneCalled tid e) s
  let s1 :=
    if e.truthy && s0.hasHandler then
      addEvent (.handlerCalled e) { s0 with todo := [], pendingCount := 0 }
    else s0
  next { s1 with pendingCount := s1.pendingCount - 1 }

/-- Interpretation of a task body, parametric in the drain entry point
`next`.  `enq t k` is a body that calls `thing.then(t)` and continues with
`k`; `callDone e k` invokes this task's `done` with `e` and continues with
`k`; `finWrap cid` is the wrapper that `finally` pushes
(`function() { thing._pendingCount--; callback(); }`, flasync.js lines
43-46).  Exceptions thrown by the body (or propagating out of a re-entrant
drain) surface as `Res.thrown`. -/
def runTaskWith (next : EngineState → Res) (tid : Nat) : Tsk → EngineState → Res
  | .ret, s => .ok s
  | .emit l k, s => runTaskWith next tid k (addEvent (.emitted l) s)
  | .enq t k, s =>
    match thenOpWith next t s with
    | .ok s' => runTaskWith next tid k s'
    | r => r
  | .callDone e k, s =>
    match doneStepWith next tid e s with
    | .ok s' => runTaskWith next tid k s'
    | r => r
  | .throwE e, s => .thrown e s
  | .suspend sid, s => .ok { s with waiting := s.waiting ++ [(sid, tid)] }
  | .finWrap cid, s =>
    .ok (addEvent (.finCb tid cid) { s with pendingCount := s.pendingCount - 1 })

/-- `_nextTask` (flasync.js lines 56-82), fuel-indexed.  If the queue is
empty, return.  Otherwise shift the head task, increment `_pendingCount`,
and invoke the task with its completion closure; the surrounding
`try`/`catch` clears the queue, resets the counter to 0 and routes a thrown
error to the handler if one is registered, rethrowing it otherwise. -/
def nextTask : Nat → EngineState → Res
  | 0, _ => .out
  | fuel + 1, s =>
    match s.todo with
    | [] => .ok s
    | (tid, t) :: rest =>
      let s1 := addEvent (.started tid s.pendingCount)
        { s with todo := rest, pendingCount := s.pendingCount + 1 }
      match runTaskWith (nextTask fuel) tid t s1 with
      | .ok s' => .ok s'
      | .thrown e s' =>
        let s2 := { s' with todo := [], pendingCount := 0 }
        if s2.hasHandler then .ok (addEvent (.handlerCalled (.err e)) s2)
        else .thrown e s2
      | .out => .out

/-- A public `then(callback)` call (flasync.js lines 21-29): enqueue, drain
if idle, `return thing`. -/
def thenTop (fuel : Nat) (t : Tsk) (s : EngineState) : ORes :=
  liftRes (thenOpWith (nextTask fuel) t s) .self

/-- A public `finally(callback)` call (flasync.js lines 41-50): push the
wrapper task, drain if `_pendingCount === 0`; no return statement, so the
call evaluates to `undefined`. -/
def finallyTop (fuel : Nat) (cid : Nat) (s : EngineState) : ORes :=
  if (pushSt (Tsk.finWrap cid) s).pendingCount == 0 then
    liftRes (nextTask fuel (pushSt (Tsk.finWrap cid) s)) .undefV
  else .ok (pushSt (Tsk.finWrap cid) s) .undefV

/-- A synchronous method wrapped by `asyncify`: its observable side effects
and its return value. -/
structure SyncMethod where
  effects : List Nat
  retVal : RetV
deriving DecidableEq

/-- The task that `asyncify`'s slow path enqueues
(`function callAsyncifiedMethod(done) { bound.apply(thing); done(); }`):
run the method's effects, then call `done()` — i.e. `done(undefined)`. -/
def Tsk.ofSync (m : SyncMethod) : Tsk :=
  m.effects.foldr .emit (.callDone .undefined .ret)

/-- Inline execution of a synchronous method (`method.apply(thing, arguments)`
on the fast path): its effects land on the trace; the chain state is
otherwise untouched. -/
def runSyncInline (m : SyncMethod) (s : EngineState) : EngineState :=
  m.effects.foldl (fun s l => addEvent (.emitted l) s) s

/-- A call of an `asyncify`-wrapped method (flasync.js lines 93-108): if
`!thing._pendingCount`, call the method inline and return its result;
otherwise enqueue `Tsk.ofSync` via `then` and `return thing`. -/
def asyncifiedCall (fuel : Nat) (m : SyncMethod) (s : EngineState) : ORes :=
  if s.pendingCount == 0 then .ok (runSyncInline m s) m.retVal
  else liftRes (thenOpWith (nextTask fuel) (Tsk.ofSync m) s) .self

/-- A call of an `async`-wrapped method (flasync.js lines 118-125): bind the
arguments and the generated `done` into a task `t` and
`return thing.then(bound)`. -/
def asyncCall (fuel : Nat) (t : Tsk) (s : EngineState) : ORes :=
  thenTop fuel t s

/-- `onError(errorHandler)` (flasync.js lines 133-136): record that a handler
is registered; `return thing`. -/
def onErrorTop (s : EngineState) : ORes :=
  .ok { s with hasHandler := true } .self

/-- Look up the ghost task id attached to an external completion id. -/
def findW (sid : Nat) : List (Nat × Nat) → Option Nat
  | [] => none
  | (a, b) :: r => if a = sid then some b else findW sid r

/-- Remove an external completion id from the waiting map. -/
def dropW (sid : Nat) : List (Nat × Nat) → List (Nat × Nat)
  | [] => []
  | (a, b) :: r => if a = sid then r else (a, b) :: dropW sid r

/-- An external completion event (e.g. an I/O callback) invoking the `done`
closure of a previously suspended task with error value `e`.  The id is
consumed, so each suspension's `done` fires at most once (the spec's caller
contract). -/
def fireDone (fuel : Nat) (sid : Nat) (e : JsVal) (s : EngineState) : Res :=
  match findW sid s.waiting with
  | none => .ok s
  | some tid =>
    doneStepWith (nextTask fuel) tid e { s with waiting := dropW sid s.waiting }

/-- One step of a client program driving the chain: a `then` call, a
`finally` call, a call of an `asyncify`-wrapped method, a call of an
`async`-wrapped method, an `onError` registration, or an external completion
event. -/
inductive Op where
  | thn (t : Tsk)
  | fin (cid : Nat)
  | syncCall (m : SyncMethod)
  | aCall (t : Tsk)
  | onErr
  | fire (sid : Nat) (e : JsVal)
deriving DecidableEq

/-- Discard the return value of a public call. -/
def toRes : ORes → Res
  | .ok s _ => .ok s
  | .thrown e s => .thrown e s
  | .out => .out

/-- Run one client operation. -/
def runOp (fuel : Nat) (o : Op) (s : EngineState) : Res :=
  match o with
  | .thn t => toRes (thenTop fuel t s)
  | .fin cid => toRes (finallyTop fuel cid s)
  | .syncCall m => toRes (asyncifiedCall fuel m s)
  | .aCall t => toRes (asyncCall fuel t s)
  | .onErr => toRes (onErrorTop s)
  | .fire sid e => fireDone fuel sid e s

/-- Run a client program.  An exception that escapes a public call is
uncaught, so the run stops there (as does a run that exhausts its fuel). -/
def runOps (fuel : Nat) : List Op → EngineState → Res
  | [], s => .ok s
  | o :: os, s =>
    match runOp fuel o s with
    | .ok s' => runOps fuel os s'
    | r => r

/-- The state `flasync(thing)` installs: empty queue, counter 0, no handler. -/
def initState : EngineState :=
  { todo := [], pendingCount := 0, hasHandler := false, nextId := 0,
    waiting := [], trace := [] }

/-! ## Observation and specification helpers -/

/-- Ghost ids of the tasks currently in the queue, in queue order. -/
def idsOf (todo : List (Nat × Tsk)) : List Nat := todo.map Prod.fst

/-- Ghost ids of the tasks started so far, in start order. -/
def startedIds (tr : List Event) : List Nat :=
  tr.filterMap fun e =>
    match e with
    | .started tid _ => some tid
    | _ => none

/-- Whether task `tid` has started in the trace. -/
def startedIn (tr : List Event) (tid : Nat) : Bool :=
  tr.any fun e =>
    match e with
    | .started t _ => t == tid
    | _ => false

/-- Whether the error handler has been invoked somewhere in the trace (in
every such case the code has just discarded the queue: the chain was
abandoned). -/
def abandonIn (tr : List Event) : Bool :=
  tr.any fun e =>
    match e with
    | .handlerCalled _ => true
    | _ => false

/-- Events that retire task `i`: its `done` fired, it was a `finally` wrapper
and ran its internal decrement, or the chain was abandoned by an error. -/
def closesId (i : Nat) : Event → Bool
  | .doneCalled t _ => t == i
  | .finCb t _ => t == i
  | .handlerCalled _ => true
  | _ => false

/-- Whether task `i` has been retired somewhere in the trace. -/
def closedIn (tr : List Event) (i : Nat) : Bool := tr.any (closesId i)

/-- A strictly increasing list of ghost ids (i.e. FIFO enqueue order). -/
def strictlyInc : List Nat → Bool
  | [] => true
  | [_] => true
  | a :: b :: r => decide (a < b) && strictlyInc (b :: r)

/-- Strictly increasing with all entries at least `lb`. -/
def strictlyIncFrom (lb : Nat) : List Nat → Bool
  | [] => true
  | a :: r => decide (lb ≤ a) && strictlyIncFrom (a + 1) r

/-- The literal reading of the spec sentence behind C1: scanning the trace,
a new task may only start once every previously started task has had its
`done` callback fired (`doneCalled`); nothing else releases the gate.  The
first argument is the set of started tasks whose `done` has not yet fired. -/
def strictDoneOrder : List Nat → List Event → Bool
  | fl, [] => true
  | fl, .started tid _ :: r => fl.isEmpty && strictDoneOrder [tid] r
  | fl, .doneCalled tid _ :: r => strictDoneOrder (fl.erase tid) r
  | fl, _ :: r => strictDoneOrder fl r

/-- Claim C1 exactly as stated, as a decidable check on a run: tasks start in
strict FIFO enqueue order, and a later task never starts before the `done`
callback of every earlier started task has fired. -/
def claimC1holds : Res → Bool
  | .ok s => strictlyInc (startedIds s.trace) && strictDoneOrder [] s.trace
  | _ => true

/-- State of the trace scanner: the task currently in flight (started, not
yet retired), and a strict lower bound on the id of the next task allowed to
start (one more than the last started id). -/
structure ScanSt where
  fl : Option Nat
  lb : Nat
deriving DecidableEq

/-- One scanner step.  A `started tid p` event is accepted only when no task
is in flight, the recorded counter value `p` is 0, and `tid` respects FIFO
order; `doneCalled`/`finCb` must retire exactly the in-flight task; an error
handler invocation marks chain abandonment and retires any in-flight task. -/
def stepSc (c : ScanSt) : Event → Option ScanSt
  | .started tid p =>
    if c.fl = none ∧ p = 0 ∧ c.lb ≤ tid then some ⟨some tid, tid + 1⟩ else none
  | .doneCalled tid _ => if c.fl = some tid then some ⟨none, c.lb⟩ else none
  | .finCb tid _ => if c.fl = some tid then some ⟨none, c.lb⟩ else none
  | .handlerCalled _ => some ⟨none, c.lb⟩
  | .emitted _ => some c

/-- Scan a trace; `some c'` means the whole trace obeys the serialization
discipline of `stepSc` and ends in scanner state `c'`. -/
def scanTr (c : ScanSt) : List Event → Option ScanSt
  | [] => some c
  | e :: tr =>
    match stepSc c e with
    | none => none
    | some c' => scanTr c' tr

/-- The done-discipline required of task bodies by the spec's caller
contract, strengthened to "`done` is the body's final action": a body either
never invokes its `done` (`ret`, `throwE`, `finWrap`), hands it to an
external completion (`suspend`), or ends with a single `callDone`; bodies
enqueued by `enq` obey the same discipline. -/
def Tsk.wfT : Tsk → Bool
  | .ret => true
  | .throwE _ => true
  | .suspend _ => true
  | .finWrap _ => true
  | .callDone _ k => k == .ret
  | .emit _ k => k.wfT
  | .enq t k => t.wfT && k.wfT

/-- Well-formedness of one client operation: every task body handed to the
engine obeys `Tsk.wfT`. -/
def Op.wfb : Op → Bool
  | .thn t => t.wfT
  | .aCall t => t.wfT
  | _ => true

/-- Well-formedness of a client program. -/
def opsWf (ops : List Op) : Bool := ops.all Op.wfb

/-! ## Invariants of the engine state -/

/-- Queue sanity relative to the scanner's FIFO bound `lb`: queued ids are
strictly increasing, lie between `lb` and the fresh-id counter, and every
queued body obeys the done discipline. -/
def QueueOK (lb : Nat) (s : EngineState) : Prop :=
  List.Pairwise (fun a b => a < b) (idsOf s.todo) ∧
  (∀ id ∈ idsOf s.todo, lb ≤ id ∧ id < s.nextId) ∧
  lb ≤ s.nextId ∧
  (∀ p ∈ s.todo, Tsk.wfT p.2 = true)

/-- Accounting: every allocated id is still queued, has started, or the
chain has been abandoned (which is the only way tasks are discarded). -/
def Acct (s : EngineState) : Prop :=
  ∀ id, id < s.nextId →
    id ∈ idsOf s.todo ∨ startedIn s.trace id = true ∨ abandonIn s.trace = true

/-- Relation between the counter, the in-flight task and the waiting map in
a quiescent state: idle (0, nothing in flight), one task in flight
(suspended or stalled; any waiting entry belongs to it), or the poisoned
state the counter bug leaves behind (-1, nothing in flight, nothing
waiting). -/
def PendOK (c : ScanSt) (s : EngineState) : Prop :=
  (s.pendingCount = 0 ∧ c.fl = none ∧ s.waiting = []) ∨
  (∃ b, s.pendingCount = 1 ∧ c.fl = some b ∧
    (∀ w ∈ s.waiting, w.2 = b) ∧ s.waiting.length ≤ 1) ∨
  (s.pendingCount = -1 ∧ c.fl = none ∧ s.waiting = [])

/-- Invariant of every quiescent engine state (between client operations,
and whenever the drain loop returns normally). -/
def RestInv (s : EngineState) : Prop :=
  ∃ c, scanTr ⟨none, 0⟩ s.trace = some c ∧ QueueOK c.lb s ∧ Acct s ∧ PendOK c s

/-- Invariant while the body of task `tid` is executing, before it has
performed its terminal action: `tid` is the sole in-flight task, the counter
is 1 and nothing is waiting. -/
def MidInv (tid : Nat) (s : EngineState) : Prop :=
  ∃ c, scanTr ⟨none, 0⟩ s.trace = some c ∧ c.fl = some tid ∧
    QueueOK c.lb s ∧ Acct s ∧ s.pendingCount = 1 ∧ s.waiting = []

/-- What survives of the invariant in a state carried by a propagating
exception (the enclosing catch block overwrites the queue and the counter
anyway). -/
def ThrownSt (s : EngineState) : Prop :=
  (∃ c, scanTr ⟨none, 0⟩ s.trace = some c ∧ c.lb ≤ s.nextId) ∧ s.waiting = []

/-- Trace/allocation monotonicity across an engine step. -/
def StEx (s s' : EngineState) : Prop :=
  (∃ u, s'.trace = s.trace ++ u) ∧ s.nextId ≤ s'.nextId

/-- The pending-or-fired status of the `finally` registration `(id, cid)`:
its wrapper is still queued, its callback has fired, or the chain has been
abandoned. -/
def Qp (id cid : Nat) (s : EngineState) : Prop :=
  (id, Tsk.finWrap cid) ∈ s.todo ∨ Event.finCb id cid ∈ s.trace ∨
  abandonIn s.trace = true

/-- Preservation of every `finally` registration's status. -/
def QpPres (s s' : EngineState) : Prop := ∀ id cid, Qp id cid s → Qp id cid s'

/-- Postcondition of an engine step started from quiescent-or-mid state
`s`. -/
def ResOK (s : EngineState) : Res → Prop
  | .ok s' => RestInv s' ∧ StEx s s' ∧ QpPres s s'
  | .thrown _ s' => ThrownSt s' ∧ StEx s s'
  | .out => True

/-- Contract of a drain entry point handed around as `next`: from any
quiescent state that is either idle or has an empty queue, it establishes
`ResOK`. -/
def NextOK (next : EngineState → Res) : Prop :=
  ∀ s, RestInv s → (s.pendingCount = 0 ∨ s.todo = []) → ResOK s (next s)

/-- Number of times the `finally` wrapper with ghost id `tid` has fired. -/
def countFin (tid : Nat) (tr : List Event) : Nat :=
  tr.countP fun e =>
    match e with
    | .finCb t _ => t == tid
    | _ => false

/-- Number of `started` events for ghost id `tid`. -/
def countStart (tid : Nat) (tr : List Event) : Nat :=
  tr.countP fun e =>
    match e with
    | .started t _ => t == tid
    | _ => false

/-- Number of `doneCalled` events for ghost id `tid`. -/
def countDone (tid : Nat) (tr : List Event) : Nat :=
  tr.countP fun e =>
    match e with
    | .doneCalled t _ => t == tid
    | _ => false

/-- Number of error-handler invocations in a trace. -/
def countHandler (tr : List Event) : Nat :=
  tr.countP fun e =>
    match e with
    | .handlerCalled _ => true
    | _ => false

/-- The counter in the final state of a run. -/
def pendingOf : Res → Int
  | .ok s => s.pendingCount
  | .thrown _ s => s.pendingCount
  | .out => 0

/-- The queue in the final state of a run. -/
def todoOf : Res → List (Nat × Tsk)
  | .ok s => s.todo
  | .thrown _ s => s.todo
  | .out => []

/-- The trace of a run. -/
def traceOf : Res → List Event
  | .ok s => s.trace
  | .thrown _ s => s.trace
  | .out => []

/-! ## Concrete programs and states used as inputs below -/

/-- Register a handler, then run a task that signals `done(err)`. -/
def progC2 : List Op := [.onErr, .thn (.callDone (.err 1) .ret)]

/-- Register a handler, start a suspending task, queue a second task, then
fire the first task's `done` with an error. -/
def progC3 : List Op :=
  [.onErr, .thn (.suspend 5), .thn (.emit 9 (.callDone .undefined .ret)),
   .fire 5 (.err 2)]

/-- A `finally` call followed by a `then` call: the wrapper's `done` never
fires, yet the later task starts. -/
def progC1ce : List Op := [.fin 0, .thn (.callDone .undefined .ret)]

/-- A quiescent state with one task in flight (id 0) and one queued task
(id 1), no handler registered. -/
def SW5 : EngineState :=
  { todo := [(1, .emit 4 (.callDone .undefined .ret))], pendingCount := 1,
    hasHandler := true, nextId := 2, waiting := [], trace := [.started 0 0] }

/-- Like `SW5` but with no handler registered. -/
def SW5n : EngineState := { SW5 with hasHandler := false }

/-- An idle state whose queue holds a single throwing task, no handler. -/
def SW4 : EngineState :=
  { todo := [(0, .throwE 5)], pendingCount := 0, hasHandler := false,
    nextId := 1, waiting := [], trace := [] }

/-- The final state of running `[.thn (.callDone .undefined .ret)]`. -/
def SWC1 : EngineState :=
  { todo := [], pendingCount := 0, hasHandler := false, nextId := 1,
    waiting := [], trace := [.started 0 0, .doneCalled 0 .undefined] }

/-- The final state of running `[.fin 0]`. -/
def SWC9 : EngineState :=
  { todo := [], pendingCount := 0, hasHandler := false, nextId := 1,
    waiting := [], trace := [.started 0 0, .finCb 0 0] }

/-! ## Computation lemmas -/

theorem foldl_addEmit : ∀ (ls : List Nat) (s : EngineState),
    ls.foldl (fun s l => addEvent (.emitted l) s) s
      = { s with trace := s.trace ++ ls.map Event.emitted }
  | [], s => by simp [addEvent]
  | l :: ls, s => by
    simp only [List.foldl_cons, List.map_cons]
    rw [foldl_addEmit ls]
    simp [addEvent]

theorem runSyncInline_eq (m : SyncMethod) (s : EngineState) :
    runSyncInline m s
      = { s with trace := s.trace ++ m.effects.map Event.emitted } :=
  foldl_addEmit m.effects s

theorem runEmits (next : EngineState → Res) (tid : Nat) :
    ∀ (ls : List Nat) (t : Tsk) (s : EngineState),
    runTaskWith next tid (ls.foldr Tsk.emit t) s
      = runTaskWith next tid t
          { s with trace := s.trace ++ ls.map Event.emitted }
  | [], t, s => by simp
  | l :: ls, t, s => by
    simp only [List.foldr_cons, List.map_cons]
    show runTaskWith next tid (ls.foldr Tsk.emit t) (addEvent (.emitted l) s) = _
    rw [runEmits next tid ls]
    simp [addEvent]

/-! ## Claim C2 (counter invariant) -/

/-- Claim C2 fails on the code: after a task signals `done(err)` with a
truthy error while a handler is registered, the completion closure in
`_nextTask` sets `_pendingCount = 0`, invokes the handler, and then still
falls through to `_pendingCount--` (flasync.js line 70; there is no early
return), so the counter of the resulting reachable state is -1, not ≥ 0. -/
theorem c2_pending_negative_bug :
    pendingOf (runOps 10 progC2 initState) = -1 ∧ opsWf progC2 = true := by
  decide

/-! ## Claim C3 (async error with handler) -/

/-- Claim C3 against the code, at the failing input `progC3`: the queue is
cleared, the handler is invoked exactly once with the signalled error, and
the task queued behind the failing one never starts — but the counter ends
at -1 instead of the 0 the claim (and spec) state, because the completion
closure decrements it after resetting it (flasync.js line 70). -/
theorem c3_async_error_abandon_bug :
    todoOf (runOps 10 progC3 initState) = [] ∧
    countHandler (traceOf (runOps 10 progC3 initState)) = 1 ∧
    Event.handlerCalled (JsVal.err 2) ∈ traceOf (runOps 10 progC3 initState) ∧
    startedIn (traceOf (runOps 10 progC3 initState)) 1 = false ∧
    pendingOf (runOps 10 progC3 initState) = -1 := by
  decide

/-! ## Claim C5 (async error without handler) -/

/-- Claim C5: when a task's `done` is invoked with an error while no handler
is registered, the completion closure does not clear the queue and does not
throw: it just records the `done`, decrements `_pendingCount`, and resumes
the drain loop (`_nextTask`) on the otherwise-unchanged state, so the
remaining queued tasks keep running in order. -/
theorem c5_async_error_no_handler (fuel : Nat) (tid : Nat) (e : JsVal)
    (s : EngineState) (h : s.hasHandler = false) :
    doneStepWith (nextTask fuel) tid e s
      = nextTask fuel
          { s with pendingCount := s.pendingCount - 1,
                   trace := s.trace ++ [Event.doneCalled tid e] } := by
  simp [doneStepWith, addEvent, h]

/-- Witness for C5 at a concrete state with one queued task. -/
theorem c5_witness :
    doneStepWith (nextTask 3) 0 (JsVal.err 9) SW5n
      = nextTask 3
          { SW5n with pendingCount := SW5n.pendingCount - 1,
                      trace := SW5n.trace ++ [Event.doneCalled 0 (JsVal.err 9)] } :=
  c5_async_error_no_handler 3 0 (JsVal.err 9) SW5n (by decide)

/-! ## Claim C10 (falsy error value) -/

/-- Claim C10: a `done` invoked with a falsy error value (`null`, `0`,
`false`, the empty string, `undefined`) is treated as success even when a
handler is registered — `if (err && thing._onError)` does not fire, so the
handler is not invoked, the queue is untouched, the counter is decremented
and the drain loop resumes with the next queued task. -/
theorem c10_falsy_done_success (fuel : Nat) (tid : Nat) (e : JsVal)
    (s : EngineState) (hE : e.truthy = false) (hH : s.hasHandler = true) :
    (doneStepWith (nextTask fuel) tid e s
      = nextTask fuel
          { s with pendingCount := s.pendingCount - 1,
                   trace := s.trace ++ [Event.doneCalled tid e] }) ∧
    JsVal.truthy .null = false ∧ JsVal.truthy (.num 0) = false ∧
    JsVal.truthy (.bool false) = false ∧ JsVal.truthy (.str "") = false := by
  refine ⟨?_, by decide, by decide, by decide, by decide⟩
  simp [doneStepWith, addEvent, hE]

/-- Witness for C10: a `done(null)` at a concrete state with a handler
registered and one queued task. -/
theorem c10_witness :
    (doneStepWith (nextTask 3) 0 JsVal.null SW5
      = nextTask 3
          { SW5 with pendingCount := SW5.pendingCount - 1,
                     trace := SW5.trace ++ [Event.doneCalled 0 JsVal.null] }) ∧
    JsVal.truthy .null = false ∧ JsVal.truthy (.num 0) = false ∧
    JsVal.truthy (.bool false) = false ∧ JsVal.truthy (.str "") = false :=
  c10_falsy_done_success 3 0 JsVal.null SW5 (by decide) (by decide)

/-! ## Claim C6 (asyncify fast path) -/

/-- Claim C6: a call of an `asyncify`-wrapped method while the counter is 0
runs the method inline (its effects are appended to the trace within the
same invocation), returns the method's own result directly, and leaves the
queue (and the fresh-id counter) untouched — no task is enqueued. -/
theorem c6_asyncify_fast_path (fuel : Nat) (m : SyncMethod) (s : EngineState)
    (h : s.pendingCount = 0) :
    asyncifiedCall fuel m s = .ok (runSyncInline m s) m.retVal ∧
    (runSyncInline m s).todo = s.todo ∧
    (runSyncInline m s).nextId = s.nextId ∧
    (runSyncInline m s).trace = s.trace ++ m.effects.map Event.emitted := by
  refine ⟨by simp [asyncifiedCall, h], ?_, ?_, ?_⟩ <;>
    rw [runSyncInline_eq]

/-- Witness for C6 at a concrete idle state. -/
theorem c6_witness :
    asyncifiedCall 3 ⟨[4, 7], RetV.val 42⟩ initState
        = .ok (runSyncInline ⟨[4, 7], RetV.val 42⟩ initState) (RetV.val 42) ∧
    (runSyncInline ⟨[4, 7], RetV.val 42⟩ initState).todo = initState.todo ∧
    (runSyncInline ⟨[4, 7], RetV.val 42⟩ initState).nextId = initState.nextId ∧
    (runSyncInline ⟨[4, 7], RetV.val 42⟩ initState).trace
        = initState.trace ++ [4, 7].map Event.emitted :=
  c6_asyncify_fast_path 3 ⟨[4, 7], RetV.val 42⟩ initState (by decide)

/-! ## Claim C7 (asyncify deferred path) -/

/-- Claim C7: a call of an `asyncify`-wrapped method while the counter is
positive does not run the method inline (the trace is unchanged): it appends
to the queue a task that replays the method's captured effects and then
immediately calls `done()`, and the call returns the host object at once. -/
theorem c7_asyncify_defers (fuel : Nat) (m : SyncMethod) (s : EngineState)
    (h : 0 < s.pendingCount) :
    asyncifiedCall fuel m s = .ok (pushSt (Tsk.ofSync m) s) .self ∧
    (pushSt (Tsk.ofSync m) s).todo = s.todo ++ [(s.nextId, Tsk.ofSync m)] ∧
    (pushSt (Tsk.ofSync m) s).trace = s.trace ∧
    Tsk.ofSync m
      = m.effects.foldr Tsk.emit (Tsk.callDone JsVal.undefined Tsk.ret) := by
  have h0 : (s.pendingCount == 0) = false := by
    simp only [beq_eq_false_iff_ne, ne_eq]
    omega
  refine ⟨?_, rfl, rfl, rfl⟩
  simp [asyncifiedCall, thenOpWith, pushSt, h0, liftRes]

/-- Witness for C7 at a concrete state with one task in flight. -/
theorem c7_witness :
    asyncifiedCall 3 ⟨[4], RetV.self⟩ SW5
        = .ok (pushSt (Tsk.ofSync ⟨[4], RetV.self⟩) SW5) .self ∧
    (pushSt (Tsk.ofSync ⟨[4], RetV.self⟩) SW5).todo
        = SW5.todo ++ [(SW5.nextId, Tsk.ofSync ⟨[4], RetV.self⟩)] ∧
    (pushSt (Tsk.ofSync ⟨[4], RetV.self⟩) SW5).trace = SW5.trace ∧
    Tsk.ofSync ⟨[4], RetV.self⟩
        = [4].foldr Tsk.emit (Tsk.callDone JsVal.undefined Tsk.ret) :=
  c7_asyncify_defers 3 ⟨[4], RetV.self⟩ SW5 (by decide)

/-! ## Claim C8 (then) -/

/-- Claim C8: `then(task)` appends the task to the end of the queue; it
triggers a drain step synchronously within the same call exactly when
`_pendingCount` is 0 at call time (otherwise the call only enqueues); and on
normal completion it returns the owning host object. -/
theorem c8_then_spec (fuel : Nat) (t : Tsk) (s : EngineState) :
    (pushSt t s).todo = s.todo ++ [(s.nextId, t)] ∧
    (s.pendingCount = 0 →
      thenTop fuel t s = liftRes (nextTask fuel (pushSt t s)) RetV.self) ∧
    (s.pendingCount ≠ 0 → thenTop fuel t s = .ok (pushSt t s) RetV.self) := by
  refine ⟨rfl, fun h => ?_, fun h => ?_⟩
  · simp [thenTop, thenOpWith, pushSt, h]
  · have h0 : (s.pendingCount == 0) = false := by
      simp only [beq_eq_false_iff_ne, ne_eq]
      omega
    simp [thenTop, thenOpWith, pushSt, h0, liftRes]

/-- Witness for C8: at an idle state the call drains synchronously. -/
theorem c8_witness :
    thenTop 2 Tsk.ret initState
      = liftRes (nextTask 2 (pushSt Tsk.ret initState)) RetV.self :=
  (c8_then_spec 2 Tsk.ret initState).2.1 (by decide)

/-! ## Claim C1, counterexample part -/

/-- Claim C1 as literally stated is false on the code: in the well-formed
program `progC1ce`, the `finally` wrapper (task 0) is enqueued first and its
`done` callback never fires (the wrapper ignores it by design), yet the task
enqueued by the later `then` call starts anyway. -/
theorem c1_counterexample :
    claimC1holds (runOps 10 progC1ce initState) = false ∧
    opsWf progC1ce = true := by
  decide

/-! ## Claim C4 (synchronous throw) -/

/-- Claim C4: if the task the drain step invokes throws synchronously (here:
any body that performs some effects and then throws), the `try`/`catch` in
`_nextTask` intercepts it: the queue is cleared of every not-yet-started
task, `_pendingCount` is reset to 0, and the error is passed to the error
handler when one is registered, and otherwise rethrown out of the drain
step (`Res.thrown`), i.e. into whichever caller's frame was draining. -/
theorem c4_sync_throw_caught (fuel : Nat) (s : EngineState) (tid : Nat)
    (ls : List Nat) (e : Nat) (rest : List (Nat × Tsk))
    (h : s.todo = (tid, ls.foldr Tsk.emit (Tsk.throwE e)) :: rest) :
    nextTask (fuel + 1) s =
      if s.hasHandler then
        Res.ok
          { s with
            todo := [], pendingCount := 0,
            trace := s.trace ++ Event.started tid s.pendingCount ::
              (ls.map Event.emitted ++ [Event.handlerCalled (JsVal.err e)]) }
      else
        Res.thrown e
          { s with
            todo := [], pendingCount := 0,
            trace := s.trace ++ Event.started tid s.pendingCount ::
              ls.map Event.emitted } := by
  simp only [nextTask, h]
  rw [runEmits]
  cases hH : s.hasHandler <;>
    simp [runTaskWith, addEvent, hH, List.append_assoc]

/-- Witness for C4: a throwing task at the head of the queue of `SW4` (no
handler registered) surfaces the error with the queue cleared. -/
theorem c4_witness :
    nextTask (2 + 1) SW4 =
      if SW4.hasHandler then
        Res.ok
          { SW4 with
            todo := [], pendingCount := 0,
            trace := SW4.trace ++ Event.started 0 SW4.pendingCount ::
              (List.map Event.emitted []
                ++ [Event.handlerCalled (JsVal.err 5)]) }
      else
        Res.thrown 5
          { SW4 with
            todo := [], pendingCount := 0,
            trace := SW4.trace ++ Event.started 0 SW4.pendingCount ::
              List.map Event.emitted [] } :=
  c4_sync_throw_caught 2 SW4 0 [] 5 [] (by decide)

/-! ## Scanner and trace lemmas -/

theorem scanTr_append : ∀ (u : List Event) (c : ScanSt) (v : List Event),
    scanTr c (u ++ v) = (scanTr c u).bind fun c' => scanTr c' v
  | [], c, v => by simp [scanTr]
  | e :: u, c, v => by
    simp only [List.cons_append, scanTr]
    cases stepSc c e
    · simp
    · simp [scanTr_append u]

theorem scan_emits : ∀ (ls : List Nat) (c : ScanSt),
    scanTr c (ls.map Event.emitted) = some c
  | [], c => rfl
  | l :: ls, c => by
    simp only [List.map_cons, scanTr, stepSc]
    exact scan_emits ls c

theorem startedIn_append (tr u : List Event) (id : Nat) :
    startedIn (tr ++ u) id = (startedIn tr id || startedIn u id) := by
  simp [startedIn, List.any_append]

theorem abandonIn_append (tr u : List Event) :
    abandonIn (tr ++ u) = (abandonIn tr || abandonIn u) := by
  simp [abandonIn, List.any_append]

theorem startedIn_self (tr : List Event) (tid : Nat) (p : Int) :
    startedIn (tr ++ [Event.started tid p]) tid = true := by
  simp [startedIn_append, startedIn]

theorem abandonIn_handler (tr : List Event) (e : JsVal) :
    abandonIn (tr ++ [Event.handlerCalled e]) = true := by
  simp [abandonIn_append, abandonIn]

/-! ## Extension and status-preservation lemmas -/

theorem stEx_refl (s : EngineState) : StEx s s :=
  ⟨⟨[], by simp⟩, le_refl _⟩

theorem stEx_trans {s1 s2 s3 : EngineState} (h1 : StEx s1 s2)
    (h2 : StEx s2 s3) : StEx s1 s3 := by
  obtain ⟨⟨u, hu⟩, hn1⟩ := h1
  obtain ⟨⟨v, hv⟩, hn2⟩ := h2
  exact ⟨⟨u ++ v, by rw [hv, hu, List.append_assoc]⟩, le_trans hn1 hn2⟩

theorem stEx_addEvent (e : Event) (s : EngineState) : StEx s (addEvent e s) :=
  ⟨⟨[e], rfl⟩, le_refl _⟩

theorem stEx_pushSt (t : Tsk) (s : EngineState) : StEx s (pushSt t s) :=
  ⟨⟨[], by simp [pushSt]⟩, Nat.le_succ _⟩

theorem qpPres_refl (s : EngineState) : QpPres s s := fun _ _ h => h

theorem qpPres_trans {s1 s2 s3 : EngineState} (h1 : QpPres s1 s2)
    (h2 : QpPres s2 s3) : QpPres s1 s3 := fun id cid h => h2 id cid (h1 id cid h)

/-- A step that only appends trace events and keeps (or extends) the queue
preserves every `finally` registration's status. -/
theorem qpPres_of_sub {s s' : EngineState}
    (htodo : ∀ p, p ∈ s.todo → p ∈ s'.todo)
    (htr : ∃ u, s'.trace = s.trace ++ u) : QpPres s s' := by
  rintro id cid (h | h | h)
  · exact Or.inl (htodo _ h)
  · obtain ⟨u, hu⟩ := htr
    exact Or.inr (Or.inl (by rw [hu]; exact List.mem_append_left _ h))
  · obtain ⟨u, hu⟩ := htr
    refine Or.inr (Or.inr ?_)
    rw [hu, abandonIn_append, h]
    rfl

theorem resOK_mono {s1 : EngineState} {r : Res} (h : ResOK s1 r)
    {s : EngineState} (hx : StEx s s1) (hq : QpPres s s1) : ResOK s r := by
  cases r with
  | ok s' => exact ⟨h.1, stEx_trans hx h.2.1, qpPres_trans hq h.2.2⟩
  | thrown e s' => exact ⟨h.1, stEx_trans hx h.2⟩
  | out => trivial

/-! ## Invariant-transfer lemmas -/

theorem idsOf_pushSt (t : Tsk) (s : EngineState) :
    idsOf (pushSt t s).todo = idsOf s.todo ++ [s.nextId] := by
  simp [pushSt, idsOf]

theorem queueOK_push {lb : Nat} {s : EngineState} (h : QueueOK lb s) (t : Tsk)
    (hwf : t.wfT = true) : QueueOK lb (pushSt t s) := by
  obtain ⟨hpw, hbound, hlb, hwfq⟩ := h
  refine ⟨?_, ?_, ?_, ?_⟩
  · rw [idsOf_pushSt, List.pairwise_append]
    refine ⟨hpw, List.pairwise_singleton _ _, ?_⟩
    intro a ha b hb
    rw [List.mem_singleton] at hb
    subst hb
    exact (hbound a ha).2
  · intro id hid
    rw [idsOf_pushSt] at hid
    rcases List.mem_append.1 hid with hm | hm
    · obtain ⟨h1, h2⟩ := hbound id hm
      refine ⟨h1, ?_⟩
      show id < s.nextId + 1
      omega
    · rw [List.mem_singleton] at hm
      subst hm
      exact ⟨hlb, Nat.lt_succ_self _⟩
  · show lb ≤ s.nextId + 1
    omega
  · intro p hp
    rcases List.mem_append.1 hp with hm | hm
    · exact hwfq p hm
    · rw [List.mem_singleton] at hm
      subst hm
      exact hwf

theorem acct_push {s : EngineState} (h : Acct s) (t : Tsk) :
    Acct (pushSt t s) := by
  intro id hid
  have hid' : id < s.nextId + 1 := hid
  rcases Nat.lt_succ_iff_lt_or_eq.1 hid' with hc | hc
  · rcases h id hc with hh | hh | hh
    · exact Or.inl (by rw [idsOf_pushSt]; exact List.mem_append_left _ hh)
    · exact Or.inr (Or.inl hh)
    · exact Or.inr (Or.inr hh)
  · subst hc
    refine Or.inl ?_
    rw [idsOf_pushSt]
    exact List.mem_append_right _ (List.mem_singleton.2 rfl)

theorem acct_addEvent {s : EngineState} (h : Acct s) (e : Event) :
    Acct (addEvent e s) := by
  intro id hid
  rcases h id hid with hh | hh | hh
  · exact Or.inl hh
  · refine Or.inr (Or.inl ?_)
    show startedIn (s.trace ++ [e]) id = true
    rw [startedIn_append, hh]
    rfl
  · refine Or.inr (Or.inr ?_)
    show abandonIn (s.trace ++ [e]) = true
    rw [abandonIn_append, hh]
    rfl

theorem restInv_push {s : EngineState} (h : RestInv s) (t : Tsk)
    (hwf : t.wfT = true) : RestInv (pushSt t s) := by
  obtain ⟨c, hscan, hq, ha, hp⟩ := h
  exact ⟨c, hscan, queueOK_push hq t hwf, acct_push ha t, hp⟩

theorem midInv_push {tid : Nat} {s : EngineState} (h : MidInv tid s) (t : Tsk)
    (hwf : t.wfT = true) : MidInv tid (pushSt t s) := by
  obtain ⟨c, hscan, hfl, hq, ha, hp, hw⟩ := h
  exact ⟨c, hscan, hfl, queueOK_push hq t hwf, acct_push ha t, hp, hw⟩

theorem midInv_emit {tid : Nat} {s : EngineState} (h : MidInv tid s)
    (l : Nat) : MidInv tid (addEvent (.emitted l) s) := by
  obtain ⟨c, hscan, hfl, hq, ha, hp, hw⟩ := h
  refine ⟨c, ?_, hfl, hq, acct_addEvent ha _, hp, hw⟩
  show scanTr ⟨none, 0⟩ (s.trace ++ [Event.emitted l]) = some c
  rw [scanTr_append, hscan]
  rfl

theorem restInv_of_mid {tid : Nat} {s : EngineState} (h : MidInv tid s) :
    RestInv s := by
  obtain ⟨c, hscan, hfl, hq, ha, hp, hw⟩ := h
  refine ⟨c, hscan, hq, ha, Or.inr (Or.inl ⟨tid, hp, hfl, ?_, ?_⟩)⟩
  · intro w hwm
    rw [hw] at hwm
    cases hwm
  · rw [hw]
    exact Nat.zero_le _

theorem midInv_start {s : EngineState} {tid : Nat} {t : Tsk}
    {rest : List (Nat × Tsk)} (h : RestInv s) (hp : s.pendingCount = 0)
    (htodo : s.todo = (tid, t) :: rest) :
    MidInv tid (addEvent (.started tid s.pendingCount)
      { s with todo := rest, pendingCount := s.pendingCount + 1 }) := by
  obtain ⟨c, hscan, ⟨hpw, hbound, hlb, hwfq⟩, ha, hpend⟩ := h
  have hfl : c.fl = none ∧ s.waiting = [] := by
    rcases hpend with ⟨_, h2, h3⟩ | ⟨b, h1, _⟩ | ⟨h1, _, _⟩
    · exact ⟨h2, h3⟩
    · rw [hp] at h1
      cases h1
    · rw [hp] at h1
      cases h1
  have hmem : tid ∈ idsOf s.todo := by
    rw [htodo]
    exact List.mem_cons_self _ _
  refine ⟨⟨some tid, tid + 1⟩, ?_, rfl, ⟨?_, ?_, ?_, ?_⟩, ?_, ?_, hfl.2⟩
  · show scanTr ⟨none, 0⟩ (s.trace ++ [Event.started tid s.pendingCount])
      = some ⟨some tid, tid + 1⟩
    rw [scanTr_append, hscan]
    show scanTr c [Event.started tid s.pendingCount] = some ⟨some tid, tid + 1⟩
    rw [hp]
    simp [scanTr, stepSc, hfl.1, (hbound tid hmem).1]
  · show List.Pairwise _ (idsOf rest)
    have := hpw
    rw [htodo] at this
    exact (List.pairwise_cons.1 this).2
  · intro id hid
    have hpw' := hpw
    rw [htodo] at hpw'
    refine ⟨Nat.succ_le_of_lt ((List.pairwise_cons.1 hpw').1 id hid), ?_⟩
    exact (hbound id (by rw [htodo]; exact List.mem_cons_of_mem _ hid)).2
  · exact Nat.succ_le_of_lt (hbound tid hmem).2
  · intro p hp'
    exact hwfq p (by rw [htodo]; exact List.mem_cons_of_mem _ hp')
  · intro id hid
    rcases ha id hid with hh | hh | hh
    · rw [htodo] at hh
      have hh' : id = tid ∨ id ∈ idsOf rest := by simpa [idsOf] using hh
      rcases hh' with hh' | hh'
      · subst hh'
        refine Or.inr (Or.inl ?_)
        show startedIn (s.trace ++ [Event.started id s.pendingCount]) id = true
        exact startedIn_self _ _ _
      · exact Or.inl hh'
    · refine Or.inr (Or.inl ?_)
      show startedIn (s.trace ++ [Event.started tid s.pendingCount]) id = true
      rw [startedIn_append, hh]
      rfl
    · refine Or.inr (Or.inr ?_)
      show abandonIn (s.trace ++ [Event.started tid s.pendingCount]) = true
      rw [abandonIn_append, hh]
      rfl
  · show s.pendingCount + 1 = 1
    omega

/-! ## Contract of the completion closure -/

theorem doneStep_ok (next : EngineState → Res) (hn : NextOK next) (tid : Nat)
    (e : JsVal) (s : EngineState) (h : MidInv tid s) :
    ResOK s (doneStepWith next tid e s) := by
  obtain ⟨c, hscan, hfl, hq, ha, hp, hw⟩ := h
  have hscan0 : scanTr ⟨none, 0⟩ (s.trace ++ [Event.doneCalled tid e])
      = some ⟨none, c.lb⟩ := by
    rw [scanTr_append, hscan]
    simp [scanTr, stepSc, hfl]
  cases hcond : e.truthy && s.hasHandler
  · have heq : doneStepWith next tid e s
        = next
            { s with
              pendingCount := s.pendingCount - 1,
              trace := s.trace ++ [Event.doneCalled tid e] } := by
      simp [doneStepWith, addEvent, hcond]
    rw [heq]
    have h2 : RestInv
        { s with
          pendingCount := s.pendingCount - 1,
          trace := s.trace ++ [Event.doneCalled tid e] } := by
      refine ⟨⟨none, c.lb⟩, hscan0, hq, acct_addEvent ha _, Or.inl ⟨?_, rfl, hw⟩⟩
      show s.pendingCount - 1 = 0
      omega
    refine resOK_mono
      (hn _ h2 (Or.inl (by show s.pendingCount - 1 = 0; omega)))
      ⟨⟨[Event.doneCalled tid e], rfl⟩, le_refl _⟩
      (qpPres_of_sub (fun p hp' => hp') ⟨[Event.doneCalled tid e], rfl⟩)
  · have heq : doneStepWith next tid e s
        = next
            { s with
              todo := [], pendingCount := (0 : Int) - 1,
              trace := (s.trace ++ [Event.doneCalled tid e])
                ++ [Event.handlerCalled e] } := by
      simp [doneStepWith, addEvent, hcond]
    rw [heq]
    have habandon : abandonIn ((s.trace ++ [Event.doneCalled tid e])
        ++ [Event.handlerCalled e]) = true := abandonIn_handler _ _
    have h2 : RestInv
        { s with
          todo := [], pendingCount := (0 : Int) - 1,
          trace := (s.trace ++ [Event.doneCalled tid e])
            ++ [Event.handlerCalled e] } := by
      refine ⟨⟨none, c.lb⟩, ?_, ⟨?_, ?_, hq.2.2.1, ?_⟩, ?_, ?_⟩
      · show scanTr ⟨none, 0⟩ ((s.trace ++ [Event.doneCalled tid e])
          ++ [Event.handlerCalled e]) = some ⟨none, c.lb⟩
        rw [scanTr_append, hscan0]
        rfl
      · exact List.Pairwise.nil
      · intro id hid
        simp [idsOf] at hid
      · intro p hp'
        cases hp'
      · intro id hid
        exact Or.inr (Or.inr habandon)
      · refine Or.inr (Or.inr ⟨by norm_num, rfl, hw⟩)
    refine resOK_mono (hn _ h2 (Or.inr rfl))
      ⟨⟨[Event.doneCalled tid e, Event.handlerCalled e], by simp⟩, le_refl _⟩
      (fun id cid _ => Or.inr (Or.inr habandon))

/-! ## Contract of task-body execution -/

theorem runTask_callDone_eq (next : EngineState → Res) (tid : Nat) (e : JsVal)
    (s : EngineState) :
    runTaskWith next tid (.callDone e .ret) s = doneStepWith next tid e s := by
  cases hd : doneStepWith next tid e s with
  | ok s' => simp [runTaskWith, hd]
  | thrown e' s' => simp [runTaskWith, hd]
  | out => simp [runTaskWith, hd]

theorem runTask_enq_eq (next : EngineState → Res) (tid : Nat) (t k : Tsk)
    (s : EngineState) (h : thenOpWith next t s = .ok (pushSt t s)) :
    runTaskWith next tid (.enq t k) s = runTaskWith next tid k (pushSt t s) := by
  simp [runTaskWith, h]

theorem runTask_ok (next : EngineState → Res) (hn : NextOK next) :
    ∀ (t : Tsk) (tid : Nat) (s : EngineState), t.wfT = true → MidInv tid s →
      ResOK s (runTaskWith next tid t s)
  | .ret, tid, s, hwf, h =>
    ⟨restInv_of_mid h, stEx_refl s, qpPres_refl s⟩
  | .emit l k, tid, s, hwf, h => by
    have ih := runTask_ok next hn k tid (addEvent (.emitted l) s)
      (by simpa [Tsk.wfT] using hwf) (midInv_emit h l)
    show ResOK s (runTaskWith next tid k (addEvent (.emitted l) s))
    exact resOK_mono ih (stEx_addEvent _ s)
      (qpPres_of_sub (fun p hp => hp) ⟨[Event.emitted l], rfl⟩)
  | .enq t k, tid, s, hwf, h => by
    have hp : s.pendingCount = 1 := by
      obtain ⟨c, _, _, _, _, hp, _⟩ := h
      exact hp
    have hwf1 : t.wfT = true ∧ k.wfT = true := by simpa [Tsk.wfT] using hwf
    have hcond : ((pushSt t s).pendingCount == 0) = false := by
      show (s.pendingCount == 0) = false
      rw [hp]
      decide
    have hthen : thenOpWith next t s = .ok (pushSt t s) := by
      simp [thenOpWith, hcond]
    have ih := runTask_ok next hn k tid (pushSt t s) hwf1.2
      (midInv_push h t hwf1.1)
    rw [runTask_enq_eq next tid t k s hthen]
    exact resOK_mono ih (stEx_pushSt t s)
      (qpPres_of_sub (fun p hp' => List.mem_append_left _ hp')
        ⟨[], by simp [pushSt]⟩)
  | .callDone e k, tid, s, hwf, h => by
    have hk : k = .ret := by simpa [Tsk.wfT] using hwf
    subst hk
    rw [runTask_callDone_eq]
    exact doneStep_ok next hn tid e s h
  | .throwE e, tid, s, hwf, h => by
    obtain ⟨c, hscan, hfl, hq, ha, hp, hw⟩ := h
    exact ⟨⟨⟨c, hscan, hq.2.2.1⟩, hw⟩, stEx_refl s⟩
  | .suspend sid, tid, s, hwf, h => by
    obtain ⟨c, hscan, hfl, hq, ha, hp, hw⟩ := h
    show ResOK s (.ok { s with waiting := s.waiting ++ [(sid, tid)] })
    refine ⟨⟨c, hscan, hq, ha, Or.inr (Or.inl ⟨tid, hp, hfl, ?_, ?_⟩)⟩,
      ⟨⟨[], by simp⟩, le_refl _⟩, qpPres_of_sub (fun p hp' => hp') ⟨[], by simp⟩⟩
    · intro w hwm
      rw [hw] at hwm
      have hw2 : w = (sid, tid) := by simpa using hwm
      rw [hw2]
    · rw [hw]
      simp
  | .finWrap cid, tid, s, hwf, h => by
    obtain ⟨c, hscan, hfl, hq, ha, hp, hw⟩ := h
    show ResOK s
      (.ok (addEvent (.finCb tid cid)
        { s with pendingCount := s.pendingCount - 1 }))
    refine ⟨⟨⟨none, c.lb⟩, ?_, hq, acct_addEvent ha _, Or.inl ⟨?_, rfl, hw⟩⟩,
      ⟨⟨[Event.finCb tid cid], rfl⟩, le_refl _⟩,
      qpPres_of_sub (fun p hp' => hp') ⟨[Event.finCb tid cid], rfl⟩⟩
    · show scanTr ⟨none, 0⟩ (s.trace ++ [Event.finCb tid cid])
        = some ⟨none, c.lb⟩
      rw [scanTr_append, hscan]
      simp [scanTr, stepSc, hfl]
    · show s.pendingCount - 1 = 0
      omega

/-! ## Contract of the drain loop -/

theorem nextTask_nil_eq (fuel : Nat) (s : EngineState) (h : s.todo = []) :
    nextTask (fuel + 1) s = .ok s := by
  simp [nextTask, h]

theorem nextTask_cons_eq (fuel : Nat) (s : EngineState) (tid : Nat) (t : Tsk)
    (rest : List (Nat × Tsk)) (htodo : s.todo = (tid, t) :: rest) :
    nextTask (fuel + 1) s =
      match runTaskWith (nextTask fuel) tid t
          (addEvent (.started tid s.pendingCount)
            { s with todo := rest, pendingCount := s.pendingCount + 1 }) with
      | .ok s' => .ok s'
      | .thrown e s' =>
        if s'.hasHandler then
          .ok (addEvent (.handlerCalled (.err e))
            { s' with todo := [], pendingCount := 0 })
        else .thrown e { s' with todo := [], pendingCount := 0 }
      | .out => .out := by
  simp only [nextTask, htodo]

theorem nextTask_ok : ∀ (fuel : Nat), NextOK (nextTask fuel)
  | 0 => by
    intro s h hc
    show ResOK s Res.out
    trivial
  | fuel + 1 => by
    intro s hrest hcond
    rcases htodo : s.todo with _ | ⟨⟨tid, t⟩, rest⟩
    · rw [nextTask_nil_eq fuel s htodo]
      exact ⟨hrest, stEx_refl s, qpPres_refl s⟩
    · have hp : s.pendingCount = 0 := by
        rcases hcond with hc | hc
        · exact hc
        · rw [htodo] at hc
          cases hc
      have hwft : t.wfT = true := by
        obtain ⟨c, _, hq, _, _⟩ := hrest
        exact hq.2.2.2 (tid, t) (by rw [htodo]; exact List.mem_cons_self _ _)
      have hmid := midInv_start hrest hp htodo
      have hx1 : StEx s (addEvent (.started tid s.pendingCount)
          { s with todo := rest, pendingCount := s.pendingCount + 1 }) :=
        ⟨⟨[Event.started tid s.pendingCount], rfl⟩, le_refl _⟩
      have hrun := runTask_ok (nextTask fuel) (nextTask_ok fuel) t tid
        (addEvent (.started tid s.pendingCount)
          { s with todo := rest, pendingCount := s.pendingCount + 1 }) hwft hmid
      rw [nextTask_cons_eq fuel s tid t rest htodo]
      rcases hres : runTaskWith (nextTask fuel) tid t
          (addEvent (.started tid s.pendingCount)
            { s with todo := rest, pendingCount := s.pendingCount + 1 })
        with s' | ⟨e, s'⟩ | _ <;> rw [hres] at hrun
      · show ResOK s (.ok s')
        obtain ⟨hri, hx, hqp⟩ := hrun
        refine ⟨hri, stEx_trans hx1 hx, ?_⟩
        intro id cid hq0
        rcases hq0 with hq0 | hq0 | hq0
        · rw [htodo] at hq0
          rcases List.mem_cons.1 hq0 with hq0 | hq0
          · have h2 : Tsk.finWrap cid = t := congrArg Prod.snd hq0
            have h1 : id = tid := congrArg Prod.fst hq0
            subst h2
            subst h1
            have hres' := hres
            simp only [runTaskWith] at hres'
            have hs' := Res.ok.inj hres'
            refine Or.inr (Or.inl ?_)
            rw [← hs']
            show Event.finCb id cid ∈ _ ++ [Event.finCb id cid]
            exact List.mem_append_right _ (List.mem_singleton.2 rfl)
          · exact hqp id cid (Or.inl hq0)
        · refine hqp id cid (Or.inr (Or.inl ?_))
          show Event.finCb id cid ∈ s.trace ++ [Event.started tid s.pendingCount]
          exact List.mem_append_left _ hq0
        · refine hqp id cid (Or.inr (Or.inr ?_))
          show abandonIn (s.trace ++ [Event.started tid s.pendingCount]) = true
          rw [abandonIn_append, hq0]
          rfl
      · obtain ⟨⟨⟨c', hscan', hlb'⟩, hw'⟩, hx⟩ := hrun
        show ResOK s (if s'.hasHandler = true then
            Res.ok (addEvent (.handlerCalled (.err e))
              { s' with todo := [], pendingCount := 0 })
          else Res.thrown e { s' with todo := [], pendingCount := 0 })
        cases hH : s'.hasHandler
        · rw [if_neg (by exact Bool.false_ne_true)]
          refine ⟨⟨⟨c', hscan', hlb'⟩, hw'⟩, ?_⟩
          exact stEx_trans hx1 (stEx_trans hx ⟨⟨[], by simp⟩, le_refl _⟩)
        · rw [if_pos rfl]
          have habandon : abandonIn (s'.trace ++ [Event.handlerCalled (.err e)])
              = true := abandonIn_handler _ _
          refine ⟨⟨⟨none, c'.lb⟩, ?_, ⟨?_, ?_, hlb', ?_⟩, ?_, ?_⟩, ?_, ?_⟩
          · show scanTr ⟨none, 0⟩ (s'.trace ++ [Event.handlerCalled (.err e)])
              = some ⟨none, c'.lb⟩
            rw [scanTr_append, hscan']
            rfl
          · exact List.Pairwise.nil
          · intro id hid
            simp [idsOf, addEvent] at hid
          · intro p hp'
            simp [addEvent] at hp'
          · intro id hid
            exact Or.inr (Or.inr habandon)
          · exact Or.inl ⟨rfl, rfl, hw'⟩
          · exact stEx_trans hx1
              (stEx_trans hx ⟨⟨[Event.handlerCalled (.err e)], rfl⟩, le_refl _⟩)
          · exact fun id cid _ => Or.inr (Or.inr habandon)
      · show ResOK s Res.out
        trivial

/-! ## Contracts of the public operations -/

theorem toRes_lift (r : Res) (v : RetV) : toRes (liftRes r v) = r := by
  cases r <;> rfl

theorem wfT_ofSync (m : SyncMethod) : (Tsk.ofSync m).wfT = true := by
  show (m.effects.foldr Tsk.emit (Tsk.callDone .undefined .ret)).wfT = true
  induction m.effects with
  | nil => rfl
  | cons l ls ih => simpa [Tsk.wfT] using ih

theorem qpPres_pushSt (t : Tsk) (s : EngineState) : QpPres s (pushSt t s) :=
  qpPres_of_sub (fun p hp' => List.mem_append_left _ hp') ⟨[], by simp [pushSt]⟩

theorem thenRest_ok (fuel : Nat) (t : Tsk) (s : EngineState)
    (hwf : t.wfT = true) (h : RestInv s) :
    ResOK s (thenOpWith (nextTask fuel) t s) := by
  by_cases hp : (pushSt t s).pendingCount = 0
  · rw [show thenOpWith (nextTask fuel) t s = nextTask fuel (pushSt t s) from by
      simp [thenOpWith, hp]]
    exact resOK_mono
      (nextTask_ok fuel (pushSt t s) (restInv_push h t hwf) (Or.inl hp))
      (stEx_pushSt t s) (qpPres_pushSt t s)
  · rw [show thenOpWith (nextTask fuel) t s = .ok (pushSt t s) from by
      simp [thenOpWith, hp]]
    exact ⟨restInv_push h t hwf, stEx_pushSt t s, qpPres_pushSt t s⟩

theorem findW_mem : ∀ (l : List (Nat × Nat)) (sid tid : Nat),
    findW sid l = some tid → (sid, tid) ∈ l
  | [], sid, tid, h => by cases h
  | (a, b) :: r, sid, tid, h => by
    rw [findW] at h
    by_cases hab : a = sid
    · rw [if_pos hab] at h
      subst hab
      rw [Option.some.injEq] at h
      subst h
      exact List.mem_cons_self _ _
    · rw [if_neg hab] at h
      exact List.mem_cons_of_mem _ (findW_mem r sid tid h)

theorem length_le_one_mem {α : Type} {l : List α} {a : α} (hl : l.length ≤ 1)
    (ha : a ∈ l) : l = [a] := by
  cases l with
  | nil => cases ha
  | cons b r =>
    have hr : r = [] := by
      cases r with
      | nil => rfl
      | cons c r' => simp at hl
    subst hr
    have hab : a = b := by simpa using ha
    rw [hab]

theorem fire_ok (fuel sid : Nat) (e : JsVal) (s : EngineState)
    (h : RestInv s) : ResOK s (fireDone fuel sid e s) := by
  rcases hf : findW sid s.waiting with _ | tid
  · rw [show fireDone fuel sid e s = .ok s from by simp [fireDone, hf]]
    exact ⟨h, stEx_refl s, qpPres_refl s⟩
  · have hmem := findW_mem _ _ _ hf
    have h' := h
    obtain ⟨c, hscan, hq, ha, hpend⟩ := h'
    rcases hpend with ⟨_, _, hw⟩ | ⟨b, hp1, hfl, hwb, hlen⟩ | ⟨_, _, hw⟩
    · rw [hw] at hmem
      cases hmem
    · have hsing : s.waiting = [(sid, tid)] := length_le_one_mem hlen hmem
      have htid : tid = b := hwb (sid, tid) hmem
      subst htid
      have hdrop : dropW sid s.waiting = [] := by
        rw [hsing]
        simp [dropW]
      rw [show fireDone fuel sid e s = doneStepWith (nextTask fuel) tid e
          { s with waiting := dropW sid s.waiting } from by simp [fireDone, hf]]
      have hmid : MidInv tid { s with waiting := dropW sid s.waiting } :=
        ⟨c, hscan, hfl, hq, ha, hp1, hdrop⟩
      exact resOK_mono
        (doneStep_ok (nextTask fuel) (nextTask_ok fuel) tid e _ hmid)
        ⟨⟨[], by simp⟩, le_refl _⟩ (qpPres_of_sub (fun p hp' => hp') ⟨[], by simp⟩)
    · rw [hw] at hmem
      cases hmem

theorem acct_appTr {s : EngineState} (h : Acct s) (u : List Event) :
    Acct { s with trace := s.trace ++ u } := by
  intro id hid
  rcases h id hid with hh | hh | hh
  · exact Or.inl hh
  · refine Or.inr (Or.inl ?_)
    show startedIn (s.trace ++ u) id = true
    rw [startedIn_append, hh]
    rfl
  · refine Or.inr (Or.inr ?_)
    show abandonIn (s.trace ++ u) = true
    rw [abandonIn_append, hh]
    rfl

theorem asyncified_ok (fuel : Nat) (m : SyncMethod) (s : EngineState)
    (h : RestInv s) : ResOK s (toRes (asyncifiedCall fuel m s)) := by
  by_cases hp : s.pendingCount = 0
  · rw [show toRes (asyncifiedCall fuel m s) = .ok (runSyncInline m s) from by
      simp [asyncifiedCall, hp, toRes]]
    rw [runSyncInline_eq]
    obtain ⟨c, hscan, hq, ha, hpend⟩ := h
    refine ⟨⟨c, ?_, hq, acct_appTr ha _, hpend⟩,
      ⟨⟨m.effects.map Event.emitted, rfl⟩, le_refl _⟩,
      qpPres_of_sub (fun p hp' => hp') ⟨m.effects.map Event.emitted, rfl⟩⟩
    show scanTr ⟨none, 0⟩ (s.trace ++ m.effects.map Event.emitted) = some c
    rw [scanTr_append, hscan]
    exact scan_emits m.effects c
  · rw [show toRes (asyncifiedCall fuel m s)
        = toRes (liftRes (thenOpWith (nextTask fuel) (Tsk.ofSync m) s) .self)
        from by simp [asyncifiedCall, hp]]
    rw [toRes_lift]
    exact thenRest_ok fuel _ s (wfT_ofSync m) h

theorem toRes_finallyTop (fuel cid : Nat) (s : EngineState) :
    toRes (finallyTop fuel cid s)
      = thenOpWith (nextTask fuel) (.finWrap cid) s := by
  by_cases hh : ((pushSt (Tsk.finWrap cid) s).pendingCount == 0) = true
  · simp [finallyTop, thenOpWith, hh, toRes_lift]
  · rw [Bool.not_eq_true] at hh
    simp [finallyTop, thenOpWith, hh, toRes_lift, toRes]

theorem runOp_ok (fuel : Nat) (o : Op) (s : EngineState) (hwf : o.wfb = true)
    (h : RestInv s) : ResOK s (runOp fuel o s) := by
  cases o with
  | thn t =>
    show ResOK s (toRes (thenTop fuel t s))
    rw [thenTop, toRes_lift]
    exact thenRest_ok fuel t s (by simpa [Op.wfb] using hwf) h
  | fin cid =>
    show ResOK s (toRes (finallyTop fuel cid s))
    rw [toRes_finallyTop]
    exact thenRest_ok fuel _ s rfl h
  | syncCall m => exact asyncified_ok fuel m s h
  | aCall t =>
    show ResOK s (toRes (thenTop fuel t s))
    rw [thenTop, toRes_lift]
    exact thenRest_ok fuel t s (by simpa [Op.wfb] using hwf) h
  | onErr =>
    show ResOK s (.ok { s with hasHandler := true })
    obtain ⟨c, hscan, hq, ha, hpend⟩ := h
    exact ⟨⟨c, hscan, hq, ha, hpend⟩, ⟨⟨[], by simp⟩, le_refl _⟩,
      qpPres_of_sub (fun p hp' => hp') ⟨[], by simp⟩⟩
  | fire sid e => exact fire_ok fuel sid e s h

theorem runOps_ok : ∀ (fuel : Nat) (ops : List Op) (s : EngineState),
    opsWf ops = true → RestInv s → ResOK s (runOps fuel ops s)
  | fuel, [], s, _, h => ⟨h, stEx_refl s, qpPres_refl s⟩
  | fuel, o :: os, s, hwf, h => by
    have hwf1 : o.wfb = true ∧ opsWf os = true := by simpa [opsWf] using hwf
    have h1 := runOp_ok fuel o s hwf1.1 h
    rcases hr : runOp fuel o s with s1 | ⟨e, s1⟩ | _ <;> rw [hr] at h1
    · rw [show runOps fuel (o :: os) s = runOps fuel os s1 from by
        simp [runOps, hr]]
      exact resOK_mono (runOps_ok fuel os s1 hwf1.2 h1.1) h1.2.1 h1.2.2
    · rw [show runOps fuel (o :: os) s = .thrown e s1 from by
        simp [runOps, hr]]
      exact h1
    · rw [show runOps fuel (o :: os) s = .out from by simp [runOps, hr]]
      trivial

theorem restInv_init : RestInv initState := by
  refine ⟨⟨none, 0⟩, rfl, ⟨List.Pairwise.nil, ?_, le_refl _, ?_⟩, ?_,
    Or.inl ⟨rfl, rfl, rfl⟩⟩
  · intro id hid
    cases hid
  · intro p hp
    cases hp
  · intro id hid
    exact absurd hid (Nat.not_lt_zero id)

/-! ## Reading the guarantees off an accepted trace -/

theorem scan_strictlyIncFrom : ∀ (tr : List Event) (c c' : ScanSt),
    scanTr c tr = some c' → strictlyIncFrom c.lb (startedIds tr) = true
  | [], c, c', h => rfl
  | e :: tr, c, c', h => by
    rw [scanTr] at h
    rcases hs : stepSc c e with _ | c1 <;> rw [hs] at h
    · cases h
    · have ih := scan_strictlyIncFrom tr c1 c' h
      cases e with
      | started tid p =>
        rw [stepSc] at hs
        by_cases hc : c.fl = none ∧ p = 0 ∧ c.lb ≤ tid
        · rw [if_pos hc] at hs
          have hc1 : c1 = ⟨some tid, tid + 1⟩ := (Option.some.inj hs).symm
          subst hc1
          show strictlyIncFrom c.lb (tid :: startedIds tr) = true
          rw [strictlyIncFrom, Bool.and_eq_true]
          exact ⟨decide_eq_true hc.2.2, ih⟩
        · rw [if_neg hc] at hs
          cases hs
      | doneCalled tid e' =>
        rw [stepSc] at hs
        by_cases hc : c.fl = some tid
        · rw [if_pos hc] at hs
          have hc1 : c1 = ⟨none, c.lb⟩ := (Option.some.inj hs).symm
          subst hc1
          exact ih
        · rw [if_neg hc] at hs
          cases hs
      | finCb tid cid =>
        rw [stepSc] at hs
        by_cases hc : c.fl = some tid
        · rw [if_pos hc] at hs
          have hc1 : c1 = ⟨none, c.lb⟩ := (Option.some.inj hs).symm
          subst hc1
          exact ih
        · rw [if_neg hc] at hs
          cases hs
      | handlerCalled e' =>
        rw [stepSc] at hs
        have hc1 : c1 = ⟨none, c.lb⟩ := (Option.some.inj hs).symm
        subst hc1
        exact ih
      | emitted l =>
        rw [stepSc] at hs
        have hc1 : c1 = c := (Option.some.inj hs).symm
        subst hc1
        exact ih

theorem strictlyIncFrom_inc : ∀ (l : List Nat) (lb : Nat),
    strictlyIncFrom lb l = true → strictlyInc l = true
  | [], _, _ => rfl
  | [a], _, _ => rfl
  | a :: b :: r, lb, h => by
    rw [strictlyIncFrom, Bool.and_eq_true] at h
    have h2 := h.2
    rw [strictlyIncFrom, Bool.and_eq_true] at h2
    rw [strictlyInc, Bool.and_eq_true]
    refine ⟨decide_eq_true ?_, strictlyIncFrom_inc (b :: r) (a + 1) h.2⟩
    have hb := of_decide_eq_true h2.1
    omega

theorem scan_startZero : ∀ (tr : List Event) (c c' : ScanSt),
    scanTr c tr = some c' → ∀ tid p, Event.started tid p ∈ tr → p = 0
  | [], c, c', h => by
    intro tid p hmem
    cases hmem
  | e :: tr, c, c', h => by
    rw [scanTr] at h
    rcases hs : stepSc c e with _ | c1 <;> rw [hs] at h
    · cases h
    · have ih := scan_startZero tr c1 c' h
      intro tid p hmem
      rcases List.mem_cons.1 hmem with hmem | hmem
      · cases e with
        | started tid0 p0 =>
          cases hmem
          rw [stepSc] at hs
          by_cases hc : c.fl = none ∧ p = 0 ∧ c.lb ≤ tid
          · exact hc.2.1
          · rw [if_neg hc] at hs
            cases hs
        | doneCalled t0 e0 => cases hmem
        | finCb t0 c0 => cases hmem
        | emitted l0 => cases hmem
        | handlerCalled e0 => cases hmem
      · exact ih tid p hmem

theorem scan_countFin : ∀ (tr : List Event) (c c' : ScanSt),
    scanTr c tr = some c' → ∀ tid,
    countFin tid tr + countDone tid tr
      ≤ countStart tid tr + (if c.fl = some tid then 1 else 0)
  | [], c, c', h => by
    intro tid
    simp [countFin, countDone, countStart]
  | e :: tr, c, c', h => by
    rw [scanTr] at h
    rcases hs : stepSc c e with _ | c1 <;> rw [hs] at h
    · cases h
    · have ih := scan_countFin tr c1 c' h
      intro tid
      have ih' := ih tid
      cases e with
      | started tid0 p0 =>
        rw [stepSc] at hs
        by_cases hc : c.fl = none ∧ p0 = 0 ∧ c.lb ≤ tid0
        · rw [if_pos hc] at hs
          have hc1 : c1 = ⟨some tid0, tid0 + 1⟩ := (Option.some.inj hs).symm
          subst hc1
          have h1 : countFin tid (Event.started tid0 p0 :: tr)
              = countFin tid tr := by
            simp [countFin, List.countP_cons]
          have h2 : countDone tid (Event.started tid0 p0 :: tr)
              = countDone tid tr := by
            simp [countDone, List.countP_cons]
          have h3 : countStart tid (Event.started tid0 p0 :: tr)
              = countStart tid tr + (if tid0 = tid then 1 else 0) := by
            simp [countStart, List.countP_cons]
          rw [h1, h2, h3, hc.1]
          by_cases htid : tid0 = tid
          · subst htid
            simp only [Option.some.injEq, if_pos rfl] at ih'
            simp only [if_pos rfl]
            have : ¬ (none = some tid0) := by simp
            rw [if_neg this]
            omega
          · simp only [Option.some.injEq, if_neg htid] at ih'
            rw [if_neg htid]
            have : ¬ ((none : Option Nat) = some tid) := by simp
            rw [if_neg this]
            omega
        · rw [if_neg hc] at hs
          cases hs
      | doneCalled tid0 e0 =>
        rw [stepSc] at hs
        by_cases hc : c.fl = some tid0
        · rw [if_pos hc] at hs
          have hc1 : c1 = ⟨none, c.lb⟩ := (Option.some.inj hs).symm
          subst hc1
          have h1 : countFin tid (Event.doneCalled tid0 e0 :: tr)
              = countFin tid tr := by
            simp [countFin, List.countP_cons]
          have h2 : countDone tid (Event.doneCalled tid0 e0 :: tr)
              = countDone tid tr + (if tid0 = tid then 1 else 0) := by
            simp [countDone, List.countP_cons]
          have h3 : countStart tid (Event.doneCalled tid0 e0 :: tr)
              = countStart tid tr := by
            simp [countStart, List.countP_cons]
          have hnone : ¬ ((none : Option Nat) = some tid) := by simp
          simp only [if_neg hnone] at ih'
          rw [h1, h2, h3]
          by_cases htid : tid0 = tid
          · subst htid
            rw [hc, if_pos rfl, if_pos rfl]
            omega
          · rw [if_neg htid]
            split_ifs <;> omega
        · rw [if_neg hc] at hs
          cases hs
      | finCb tid0 cid0 =>
        rw [stepSc] at hs
        by_cases hc : c.fl = some tid0
        · rw [if_pos hc] at hs
          have hc1 : c1 = ⟨none, c.lb⟩ := (Option.some.inj hs).symm
          subst hc1
          have h1 : countFin tid (Event.finCb tid0 cid0 :: tr)
              = countFin tid tr + (if tid0 = tid then 1 else 0) := by
            simp [countFin, List.countP_cons]
          have h2 : countDone tid (Event.finCb tid0 cid0 :: tr)
              = countDone tid tr := by
            simp [countDone, List.countP_cons]
          have h3 : countStart tid (Event.finCb tid0 cid0 :: tr)
              = countStart tid tr := by
            simp [countStart, List.countP_cons]
          have hnone : ¬ ((none : Option Nat) = some tid) := by simp
          simp only [if_neg hnone] at ih'
          rw [h1, h2, h3]
          by_cases htid : tid0 = tid
          · subst htid
            rw [hc, if_pos rfl, if_pos rfl]
            omega
          · rw [if_neg htid]
            split_ifs <;> omega
        · rw [if_neg hc] at hs
          cases hs
      | handlerCalled e0 =>
        rw [stepSc] at hs
        have hc1 : c1 = ⟨none, c.lb⟩ := (Option.some.inj hs).symm
        subst hc1
        have h1 : countFin tid (Event.handlerCalled e0 :: tr)
            = countFin tid tr := by
          simp [countFin, List.countP_cons]
        have h2 : countDone tid (Event.handlerCalled e0 :: tr)
            = countDone tid tr := by
          simp [countDone, List.countP_cons]
        have h3 : countStart tid (Event.handlerCalled e0 :: tr)
            = countStart tid tr := by
          simp [countStart, List.countP_cons]
        have hnone : ¬ ((none : Option Nat) = some tid) := by simp
        simp only [if_neg hnone] at ih'
        rw [h1, h2, h3]
        split_ifs <;> omega
      | emitted l0 =>
        rw [stepSc] at hs
        have hc1 : c1 = c := (Option.some.inj hs).symm
        subst hc1
        have h1 : countFin tid (Event.emitted l0 :: tr) = countFin tid tr := by
          simp [countFin, List.countP_cons]
        have h2 : countDone tid (Event.emitted l0 :: tr)
            = countDone tid tr := by
          simp [countDone, List.countP_cons]
        have h3 : countStart tid (Event.emitted l0 :: tr)
            = countStart tid tr := by
          simp [countStart, List.countP_cons]
        rw [h1, h2, h3]
        exact ih'

theorem scan_countStart : ∀ (tr : List Event) (c c' : ScanSt),
    scanTr c tr = some c' → ∀ tid,
    countStart tid tr ≤ if c.lb ≤ tid then 1 else 0
  | [], c, c', h => by
    intro tid
    simp [countStart]
  | e :: tr, c, c', h => by
    rw [scanTr] at h
    rcases hs : stepSc c e with _ | c1 <;> rw [hs] at h
    · cases h
    · have ih := scan_countStart tr c1 c' h
      intro tid
      have ih' := ih tid
      cases e with
      | started tid0 p0 =>
        rw [stepSc] at hs
        by_cases hc : c.fl = none ∧ p0 = 0 ∧ c.lb ≤ tid0
        · rw [if_pos hc] at hs
          have hc1 : c1 = ⟨some tid0, tid0 + 1⟩ := (Option.some.inj hs).symm
          subst hc1
          have h3 : countStart tid (Event.started tid0 p0 :: tr)
              = countStart tid tr + (if tid0 = tid then 1 else 0) := by
            simp [countStart, List.countP_cons]
          rw [h3]
          have hlb0 := hc.2.2
          have hproj : ({ fl := some tid0, lb := tid0 + 1 } : ScanSt).lb
              = tid0 + 1 := rfl
          rw [hproj] at ih'
          by_cases htid : tid0 = tid
          · rw [if_pos htid]
            subst htid
            split_ifs at ih' ⊢ <;> omega
          · rw [if_neg htid]
            split_ifs at ih' ⊢ <;> omega
        · rw [if_neg hc] at hs
          cases hs
      | doneCalled tid0 e0 =>
        rw [stepSc] at hs
        by_cases hc : c.fl = some tid0
        · rw [if_pos hc] at hs
          have hc1 : c1 = ⟨none, c.lb⟩ := (Option.some.inj hs).symm
          subst hc1
          have h3 : countStart tid (Event.doneCalled tid0 e0 :: tr)
              = countStart tid tr := by
            simp [countStart, List.countP_cons]
          rw [h3]
          exact ih'
        · rw [if_neg hc] at hs
          cases hs
      | finCb tid0 cid0 =>
        rw [stepSc] at hs
        by_cases hc : c.fl = some tid0
        · rw [if_pos hc] at hs
          have hc1 : c1 = ⟨none, c.lb⟩ := (Option.some.inj hs).symm
          subst hc1
          have h3 : countStart tid (Event.finCb tid0 cid0 :: tr)
              = countStart tid tr := by
            simp [countStart, List.countP_cons]
          rw [h3]
          exact ih'
        · rw [if_neg hc] at hs
          cases hs
      | handlerCalled e0 =>
        rw [stepSc] at hs
        have hc1 : c1 = ⟨none, c.lb⟩ := (Option.some.inj hs).symm
        subst hc1
        have h3 : countStart tid (Event.handlerCalled e0 :: tr)
            = countStart tid tr := by
          simp [countStart, List.countP_cons]
        rw [h3]
        exact ih'
      | emitted l0 =>
        rw [stepSc] at hs
        have hc1 : c1 = c := (Option.some.inj hs).symm
        subst hc1
        have h3 : countStart tid (Event.emitted l0 :: tr)
            = countStart tid tr := by
          simp [countStart, List.countP_cons]
        rw [h3]
        exact ih'

theorem startedIn_cons_tail (e : Event) {tr : List Event} {i : Nat}
    (h : startedIn tr i = true) : startedIn (e :: tr) i = true := by
  have heq : startedIn (e :: tr) i = (startedIn [e] i || startedIn tr i) :=
    startedIn_append [e] tr i
  rw [heq, h, Bool.or_true]

theorem closedIn_cons_tail (e : Event) {tr : List Event} {i : Nat}
    (h : closedIn tr i = true) : closedIn (e :: tr) i = true := by
  have heq : closedIn (e :: tr) i = (closedIn [e] i || closedIn tr i) := by
    show closedIn ([e] ++ tr) i = _
    simp [closedIn, List.any_append]
  rw [heq, h, Bool.or_true]

theorem startedIn_head (tid : Nat) (p : Int) (tr : List Event) :
    startedIn (Event.started tid p :: tr) tid = true := by
  simp [startedIn]

theorem closedIn_head_done (tid : Nat) (e0 : JsVal) (tr : List Event) :
    closedIn (Event.doneCalled tid e0 :: tr) tid = true := by
  simp [closedIn, closesId]

theorem closedIn_head_fin (tid cid : Nat) (tr : List Event) :
    closedIn (Event.finCb tid cid :: tr) tid = true := by
  simp [closedIn, closesId]

theorem closedIn_head_handler (e0 : JsVal) (tr : List Event) (i : Nat) :
    closedIn (Event.handlerCalled e0 :: tr) i = true := by
  simp [closedIn, closesId]

theorem scan_flTrack : ∀ (tr : List Event) (c c' : ScanSt),
    scanTr c tr = some c' → ∀ i, c.fl = some i →
    c'.fl = some i ∨ closedIn tr i = true
  | [], c, c', h, i, hi => Or.inl ((Option.some.inj h) ▸ hi)
  | e :: tr, c, c', h, i, hi => by
    rw [scanTr] at h
    rcases hs : stepSc c e with _ | c1 <;> rw [hs] at h
    · cases h
    · cases e with
      | started tid0 p0 =>
        rw [stepSc] at hs
        by_cases hc : c.fl = none ∧ p0 = 0 ∧ c.lb ≤ tid0
        · rw [hc.1] at hi
          cases hi
        · rw [if_neg hc] at hs
          cases hs
      | doneCalled tid0 e0 =>
        rw [stepSc] at hs
        by_cases hc : c.fl = some tid0
        · have htid : tid0 = i := by
            rw [hc] at hi
            exact Option.some.inj hi
          subst htid
          exact Or.inr (closedIn_head_done tid0 e0 tr)
        · rw [if_neg hc] at hs
          cases hs
      | finCb tid0 cid0 =>
        rw [stepSc] at hs
        by_cases hc : c.fl = some tid0
        · have htid : tid0 = i := by
            rw [hc] at hi
            exact Option.some.inj hi
          subst htid
          exact Or.inr (closedIn_head_fin tid0 cid0 tr)
        · rw [if_neg hc] at hs
          cases hs
      | handlerCalled e0 => exact Or.inr (closedIn_head_handler e0 tr i)
      | emitted l0 =>
        rw [stepSc] at hs
        have hc1 : c1 = c := (Option.some.inj hs).symm
        rcases scan_flTrack tr c1 c' h i (by rw [hc1]; exact hi) with h1 | h1
        · exact Or.inl h1
        · exact Or.inr (closedIn_cons_tail _ h1)

theorem scan_flOrigin : ∀ (tr : List Event) (c c' : ScanSt),
    scanTr c tr = some c' → ∀ i, c'.fl = some i →
    c.fl = some i ∨ startedIn tr i = true
  | [], c, c', h, i, hi => Or.inl (by rw [Option.some.inj h]; exact hi)
  | e :: tr, c, c', h, i, hi => by
    rw [scanTr] at h
    rcases hs : stepSc c e with _ | c1 <;> rw [hs] at h
    · cases h
    · have ih := scan_flOrigin tr c1 c' h i hi
      cases e with
      | started tid0 p0 =>
        rw [stepSc] at hs
        by_cases hc : c.fl = none ∧ p0 = 0 ∧ c.lb ≤ tid0
        · rw [if_pos hc] at hs
          have hc1 : c1 = ⟨some tid0, tid0 + 1⟩ := (Option.some.inj hs).symm
          subst hc1
          rcases ih with h1 | h1
          · have hti : tid0 = i := Option.some.inj h1
            subst hti
            exact Or.inr (startedIn_head tid0 p0 tr)
          · exact Or.inr (startedIn_cons_tail _ h1)
        · rw [if_neg hc] at hs
          cases hs
      | doneCalled tid0 e0 =>
        rw [stepSc] at hs
        by_cases hc : c.fl = some tid0
        · rw [if_pos hc] at hs
          have hc1 : c1 = ⟨none, c.lb⟩ := (Option.some.inj hs).symm
          subst hc1
          rcases ih with h1 | h1
          · cases h1
          · exact Or.inr (startedIn_cons_tail _ h1)
        · rw [if_neg hc] at hs
          cases hs
      | finCb tid0 cid0 =>
        rw [stepSc] at hs
        by_cases hc : c.fl = some tid0
        · rw [if_pos hc] at hs
          have hc1 : c1 = ⟨none, c.lb⟩ := (Option.some.inj hs).symm
          subst hc1
          rcases ih with h1 | h1
          · cases h1
          · exact Or.inr (startedIn_cons_tail _ h1)
        · rw [if_neg hc] at hs
          cases hs
      | handlerCalled e0 =>
        rw [stepSc] at hs
        have hc1 : c1 = ⟨none, c.lb⟩ := (Option.some.inj hs).symm
        subst hc1
        rcases ih with h1 | h1
        · cases h1
        · exact Or.inr (startedIn_cons_tail _ h1)
      | emitted l0 =>
        rw [stepSc] at hs
        have hc1 : c1 = c := (Option.some.inj hs).symm
        subst hc1
        rcases ih with h1 | h1
        · exact Or.inl h1
        · exact Or.inr (startedIn_cons_tail _ h1)

theorem scan_closed : ∀ (tr : List Event) (c c' : ScanSt),
    scanTr c tr = some c' → ∀ i, startedIn tr i = true →
    c'.fl = some i ∨ closedIn tr i = true
  | [], c, c', h, i, hi => by cases hi
  | e :: tr, c, c', h, i, hi => by
    rw [scanTr] at h
    rcases hs : stepSc c e with _ | c1 <;> rw [hs] at h
    · cases h
    · cases e with
      | started tid0 p0 =>
        rw [stepSc] at hs
        by_cases hc : c.fl = none ∧ p0 = 0 ∧ c.lb ≤ tid0
        · rw [if_pos hc] at hs
          have hc1 : c1 = ⟨some tid0, tid0 + 1⟩ := (Option.some.inj hs).symm
          subst hc1
          by_cases hti : tid0 = i
          · subst hti
            rcases scan_flTrack tr _ c' h tid0 rfl with h1 | h1
            · exact Or.inl h1
            · exact Or.inr (closedIn_cons_tail _ h1)
          · have hi' : startedIn tr i = true := by
              rw [show (Event.started tid0 p0 :: tr)
                  = [Event.started tid0 p0] ++ tr from rfl,
                startedIn_append] at hi
              simpa [startedIn, hti] using hi
            rcases scan_closed tr _ c' h i hi' with h1 | h1
            · exact Or.inl h1
            · exact Or.inr (closedIn_cons_tail _ h1)
        · rw [if_neg hc] at hs
          cases hs
      | doneCalled tid0 e0 =>
        have hi' : startedIn tr i = true := by
          rw [show (Event.doneCalled tid0 e0 :: tr)
              = [Event.doneCalled tid0 e0] ++ tr from rfl,
            startedIn_append] at hi
          simpa [startedIn] using hi
        rw [stepSc] at hs
        by_cases hc : c.fl = some tid0
        · rw [if_pos hc] at hs
          have hc1 : c1 = ⟨none, c.lb⟩ := (Option.some.inj hs).symm
          subst hc1
          rcases scan_closed tr _ c' h i hi' with h1 | h1
          · exact Or.inl h1
          · exact Or.inr (closedIn_cons_tail _ h1)
        · rw [if_neg hc] at hs
          cases hs
      | finCb tid0 cid0 =>
        have hi' : startedIn tr i = true := by
          rw [show (Event.finCb tid0 cid0 :: tr)
              = [Event.finCb tid0 cid0] ++ tr from rfl,
            startedIn_append] at hi
          simpa [startedIn] using hi
        rw [stepSc] at hs
        by_cases hc : c.fl = some tid0
        · rw [if_pos hc] at hs
          have hc1 : c1 = ⟨none, c.lb⟩ := (Option.some.inj hs).symm
          subst hc1
          rcases scan_closed tr _ c' h i hi' with h1 | h1
          · exact Or.inl h1
          · exact Or.inr (closedIn_cons_tail _ h1)
        · rw [if_neg hc] at hs
          cases hs
      | handlerCalled e0 =>
        have hi' : startedIn tr i = true := by
          rw [show (Event.handlerCalled e0 :: tr)
              = [Event.handlerCalled e0] ++ tr from rfl,
            startedIn_append] at hi
          simpa [startedIn] using hi
        rw [stepSc] at hs
        have hc1 : c1 = ⟨none, c.lb⟩ := (Option.some.inj hs).symm
        subst hc1
        rcases scan_closed tr _ c' h i hi' with h1 | h1
        · exact Or.inl h1
        · exact Or.inr (closedIn_cons_tail _ h1)
      | emitted l0 =>
        have hi' : startedIn tr i = true := by
          rw [show (Event.emitted l0 :: tr)
              = [Event.emitted l0] ++ tr from rfl,
            startedIn_append] at hi
          simpa [startedIn] using hi
        rw [stepSc] at hs
        have hc1 : c1 = c := (Option.some.inj hs).symm
        subst hc1
        rcases scan_closed tr _ c' h i hi' with h1 | h1
        · exact Or.inl h1
        · exact Or.inr (closedIn_cons_tail _ h1)

theorem runOps_finQp : ∀ (fuel : Nat) (ops : List Op) (s s' : EngineState),
    opsWf ops = true → RestInv s → runOps fuel ops s = .ok s' →
    ∀ cid, Op.fin cid ∈ ops → ∃ id, Qp id cid s'
  | fuel, [], s, s', _, _, h, cid, hmem => by cases hmem
  | fuel, o :: os, s, s', hwf, hrest, h, cid, hmem => by
    have hwf1 : o.wfb = true ∧ opsWf os = true := by simpa [opsWf] using hwf
    have h1 := runOp_ok fuel o s hwf1.1 hrest
    rcases hr : runOp fuel o s with s1 | ⟨e, s1⟩ | _ <;> rw [hr] at h1
    · have hrun : runOps fuel os s1 = .ok s' := by
        rw [runOps, hr] at h
        exact h
      rcases List.mem_cons.1 hmem with hmem | hmem
      · subst hmem
        have hqp1 : Qp s.nextId cid s1 := by
          have heq : thenOpWith (nextTask fuel) (Tsk.finWrap cid) s
              = .ok s1 := by
            rw [← toRes_finallyTop fuel cid s]
            exact hr
          by_cases hp : (pushSt (Tsk.finWrap cid) s).pendingCount = 0
          · rw [show thenOpWith (nextTask fuel) (Tsk.finWrap cid) s
                = nextTask fuel (pushSt (Tsk.finWrap cid) s) from by
              simp [thenOpWith, hp]] at heq
            have hok := nextTask_ok fuel (pushSt (Tsk.finWrap cid) s)
              (restInv_push hrest _ rfl) (Or.inl hp)
            rw [heq] at hok
            refine hok.2.2 s.nextId cid (Or.inl ?_)
            show (s.nextId, Tsk.finWrap cid) ∈ s.todo ++ [(s.nextId, Tsk.finWrap cid)]
            exact List.mem_append_right _ (List.mem_singleton.2 rfl)
          · rw [show thenOpWith (nextTask fuel) (Tsk.finWrap cid) s
                = .ok (pushSt (Tsk.finWrap cid) s) from by
              simp [thenOpWith, hp]] at heq
            have hs1 : pushSt (Tsk.finWrap cid) s = s1 := Res.ok.inj heq
            rw [← hs1]
            refine Or.inl ?_
            show (s.nextId, Tsk.finWrap cid) ∈ s.todo ++ [(s.nextId, Tsk.finWrap cid)]
            exact List.mem_append_right _ (List.mem_singleton.2 rfl)
        have hos := runOps_ok fuel os s1 hwf1.2 h1.1
        rw [hrun] at hos
        exact ⟨s.nextId, hos.2.2 s.nextId cid hqp1⟩
      · exact runOps_finQp fuel os s1 s' hwf1.2 h1.1 hrun cid hmem
    · rw [runOps, hr] at h
      cases h
    · rw [runOps, hr] at h
      cases h

/-! ## Claim C1, amended part -/

/-- Claim C1 as amended: for every well-formed client program (each task
invokes its `done` at most once and as its final action — the spec's caller
contract), in the final trace of any run (normal or exception-terminated)
tasks begin executing in strictly increasing ghost-enqueue-id order (strict
FIFO), and the whole trace is accepted by the serialization scanner: a later
task never starts before every earlier started task has been retired, where
a task is retired when its `done` callback fires, when it is a `finally`
wrapper and has run its internal decrement-plus-callback (its `done` never
fires, which is what refutes the unamended claim), or when the chain is
abandoned by an error; moreover every start happens while `_pendingCount`
is 0. -/
theorem c1_fifo_amended (fuel : Nat) (ops : List Op) (s' : EngineState)
    (hwf : opsWf ops = true)
    (hrun : runOps fuel ops initState = Res.ok s'
      ∨ ∃ e, runOps fuel ops initState = Res.thrown e s') :
    strictlyInc (startedIds s'.trace) = true ∧
    (scanTr ⟨none, 0⟩ s'.trace).isSome = true := by
  have hok := runOps_ok fuel ops initState hwf restInv_init
  have hscan : ∃ c, scanTr ⟨none, 0⟩ s'.trace = some c := by
    rcases hrun with h | ⟨e, h⟩
    · rw [h] at hok
      obtain ⟨⟨c, hs, _, _, _⟩, _, _⟩ := hok
      exact ⟨c, hs⟩
    · rw [h] at hok
      obtain ⟨⟨⟨c, hs, _⟩, _⟩, _⟩ := hok
      exact ⟨c, hs⟩
  obtain ⟨c, hs⟩ := hscan
  refine ⟨?_, by rw [hs]; rfl⟩
  exact strictlyIncFrom_inc _ 0 (scan_strictlyIncFrom s'.trace ⟨none, 0⟩ c hs)

/-- Witness for the amended C1 on a concrete one-task program. -/
theorem c1_fifo_amended_witness :
    strictlyInc (startedIds SWC1.trace) = true ∧
    (scanTr ⟨none, 0⟩ SWC1.trace).isSome = true :=
  c1_fifo_amended 5 [Op.thn (Tsk.callDone JsVal.undefined Tsk.ret)] SWC1
    (by decide) (Or.inl (by decide))

/-! ## Claim C9 (finally barrier) -/

/-- Claim C9: for every well-formed client program with a normally completed
run, (1) each `finally` wrapper fires its callback at most once; (2) at any
point of the trace where a `finally` wrapper fires, the wrapper itself had
been dequeued and started, and every task started before it has been
retired (its `done` fired, an earlier `finally` wrapper completed, or the
chain was abandoned by an error) — and since queued ids are consumed in
FIFO order, every task enqueued before the `finally` has left the queue;
(3) every task start, the `finally` wrapper's included, happens while
`_pendingCount` is 0, so the callback fires only once the counter has
returned to 0; (4) if the run drains completely with no error, every
registered `finally` callback has fired at least once — together with (1),
exactly once; and (5) `finally` itself is not fluent: a completed `finally`
call returns `undefined`, never the host object. -/
theorem c9_finally_barrier (fuel : Nat) (ops : List Op) (s' : EngineState)
    (hwf : opsWf ops = true) (hrun : runOps fuel ops initState = Res.ok s') :
    (∀ tid, countFin tid s'.trace ≤ 1) ∧
    (∀ u tid cid v, s'.trace = u ++ Event.finCb tid cid :: v →
      startedIn u tid = true ∧
      ∀ i, startedIn u i = true → i = tid ∨ closedIn u i = true) ∧
    (∀ tid p, Event.started tid p ∈ s'.trace → p = 0) ∧
    (s'.todo = [] → abandonIn s'.trace = false →
      ∀ cid, Op.fin cid ∈ ops → ∃ tid, Event.finCb tid cid ∈ s'.trace) ∧
    (∀ (g cid : Nat) (t r : EngineState) (v : RetV),
      finallyTop g cid t = ORes.ok r v → v = RetV.undefV) := by
  have hok := runOps_ok fuel ops initState hwf restInv_init
  rw [hrun] at hok
  obtain ⟨⟨c, hs, hq, ha, hpend⟩, hx, hqp⟩ := hok
  refine ⟨?_, ?_, ?_, ?_, ?_⟩
  · intro tid
    have h1 : countFin tid s'.trace + countDone tid s'.trace
        ≤ countStart tid s'.trace + 0 :=
      scan_countFin s'.trace ⟨none, 0⟩ c hs tid
    have h2' := scan_countStart s'.trace ⟨none, 0⟩ c hs tid
    have h2 : countStart tid s'.trace ≤ 1 := by
      rw [if_pos (Nat.zero_le tid)] at h2'
      exact h2'
    omega
  · intro u tid cid v hdecomp
    rw [hdecomp] at hs
    rw [scanTr_append] at hs
    rcases hu : scanTr ⟨none, 0⟩ u with _ | cu <;> rw [hu] at hs
    · cases hs
    · have hs1 : scanTr cu (Event.finCb tid cid :: v) = some c := hs
      rw [scanTr] at hs1
      rcases hstep : stepSc cu (Event.finCb tid cid) with _ | c2 <;>
        rw [hstep] at hs1
      · cases hs1
      · rw [stepSc] at hstep
        by_cases hcfl : cu.fl = some tid
        · constructor
          · rcases scan_flOrigin u ⟨none, 0⟩ cu hu tid hcfl with h1 | h1
            · cases h1
            · exact h1
          · intro i hi
            rcases scan_closed u ⟨none, 0⟩ cu hu i hi with h1 | h1
            · rw [hcfl] at h1
              exact Or.inl (Option.some.inj h1).symm
            · exact Or.inr h1
        · rw [if_neg hcfl] at hstep
          cases hstep
  · intro tid p hmem
    exact scan_startZero s'.trace ⟨none, 0⟩ c hs tid p hmem
  · intro htodo hab cid hmem
    obtain ⟨id, hqpid⟩ :=
      runOps_finQp fuel ops initState s' hwf restInv_init hrun cid hmem
    rcases hqpid with h1 | h1 | h1
    · rw [htodo] at h1
      cases h1
    · exact ⟨id, h1⟩
    · rw [hab] at h1
      cases h1
  · intro g cid t r v hfin
    by_cases hp : ((pushSt (Tsk.finWrap cid) t).pendingCount == 0) = true
    · rw [finallyTop, if_pos hp] at hfin
      rcases hlift : nextTask g (pushSt (Tsk.finWrap cid) t)
        with s0 | ⟨e0, s0⟩ | _ <;> rw [hlift] at hfin <;>
        simp only [liftRes] at hfin
      · exact ((ORes.ok.inj hfin).2).symm
      · cases hfin
      · cases hfin
    · rw [finallyTop, if_neg hp] at hfin
      exact ((ORes.ok.inj hfin).2).symm

/-- Witness for C9 on the concrete program consisting of one `finally`. -/
theorem c9_finally_barrier_witness :
    (∀ tid, countFin tid SWC9.trace ≤ 1) ∧
    (∀ u tid cid v, SWC9.trace = u ++ Event.finCb tid cid :: v →
      startedIn u tid = true ∧
      ∀ i, startedIn u i = true → i = tid ∨ closedIn u i = true) ∧
    (∀ tid p, Event.started tid p ∈ SWC9.trace → p = 0) ∧
    (SWC9.todo = [] → abandonIn SWC9.trace = false →
      ∀ cid, Op.fin cid ∈ [Op.fin 0] →
        ∃ tid, Event.finCb tid cid ∈ SWC9.trace) ∧
    (∀ (g cid : Nat) (t r : EngineState) (v : RetV),
      finallyTop g cid t = ORes.ok r v → v = RetV.undefV) :=
  c9_finally_barrier 5 [Op.fin 0] SWC9 (by decide) (by decide)
